import Mathlib

/-!
# Verification of the `TileList` ordered collection (`src/tilelist.cpp`)

The repository implements an ordered collection of colored axis-aligned
rectangles ("tiles") as a doubly-linked list with `front`/`back` pointers.
Front-to-back order is paint/z-order: the head of the list is topmost.

We embed the code at two levels:

* **List level** (`TileListModel`): the observable state is the front-to-back
  sequence of tile records, a `List Tile` whose head is the front.  Each public
  operation of `TileList` is translated from the C++ body: `findTile` is the
  front-to-back scan; the `findTile`-then-`detachTile` step used by `raise`,
  `lower`, `remove`, `removeAll` and `merge` removes exactly the node the scan
  found, which at the list level is the first element satisfying the
  containment predicate (`extractFirst` returns its index, the tile, and the
  list with that node spliced out).  Pointer equality tests against the
  `front`/`back` pointers (`tile != front`, `tile != back`) become index tests
  against `0` and `length - 1`.

* **Pointer level** (`TileHeap`): nodes live in a heap addressed by `Nat`
  ids, each node carrying `prev`/`next` fields of type `Option Nat`; the
  collection state is the heap together with the `front`/`back` pointers and
  an allocation counter.  `detachTile`, `attachFront` and `attachBack` are
  translated statement by statement; the structural well-formedness claims are
  settled at this level.
-/

/-- A tile record: geometry plus display color, exactly the data fields of
`TileNode` used by `tilelist.cpp` (`x`, `y`, `width`, `height`, `color`). -/
structure Tile where
  x : Int
  y : Int
  width : Int
  height : Int
  color : String
  deriving DecidableEq, Repr

/-- Modelled from the spec: `TileNode::contains` lives in `tilenode.h`, which
is not part of the repository sources (only `tilelist.cpp`/`tilelist.h` are).
The spec defines containment of a point by a tile as
`x ≤ px < x+width` and `y ≤ py < y+height`. -/
def Tile.contains (t : Tile) (px py : Int) : Bool :=
  decide (t.x ≤ px) && decide (px < t.x + t.width) &&
  decide (t.y ≤ py) && decide (py < t.y + t.height)

namespace TileListModel

/-- List-level state of a `TileList`: the tiles in front-to-back order
(head = front = topmost, last = back = bottommost). -/
abbrev TileList := List Tile

/-- `TileList::findTile`: scan from `front` following `next`, return the first
node whose `contains(x,y)` holds, or null. -/
def findTile (x y : Int) : TileList → Option Tile
  | [] => none
  | t :: ts => if t.contains x y then some t else findTile x y ts

/-- The `findTile`-then-`detachTile` combination used by every mutating
point operation: locate the first node containing `(x,y)` and splice exactly
that node out of the list.  Returns the node's front-to-back index `i`, the
tile it carries, and the remaining list; `none` when `findTile` returns null.
The index is what the pointer comparisons `tile != front` / `tile != back`
observe. -/
def extractFirst (x y : Int) : TileList → Option (Nat × Tile × TileList)
  | [] => none
  | t :: ts =>
    if t.contains x y then some (0, t, ts)
    else (extractFirst x y ts).map (fun r => (r.1 + 1, r.2.1, t :: r.2.2))

/-- `TileList::addFront`: construct a node from the caller's arguments and
attach it at the front. -/
def addFront (x y w h : Int) (c : String) (l : TileList) : TileList :=
  ⟨x, y, w, h, c⟩ :: l

/-- `TileList::addBack`: construct a node from the caller's arguments and
attach it at the back. -/
def addBack (x y w h : Int) (c : String) (l : TileList) : TileList :=
  l ++ [⟨x, y, w, h, c⟩]

/-- `TileList::clear`: delete every node and reset `front`/`back` to null. -/
def clear (_ : TileList) : TileList := []

/-- `TileList::highlight`: find the first node containing `(x,y)`; if found,
set its `color` field to `"yellow"` in place and return true, else false. -/
def highlight (x y : Int) : TileList → Bool × TileList
  | [] => (false, [])
  | t :: ts =>
    if t.contains x y then (true, { t with color := "yellow" } :: ts)
    else
      let r := highlight x y ts
      (r.1, t :: r.2)

/-- `TileList::raise`: find the first node containing `(x,y)`; if it exists
and is not the `front` node (`tile != nullptr && tile != front`), detach it,
attach it at the front and return true; otherwise return false. -/
def raise (x y : Int) (l : TileList) : Bool × TileList :=
  match extractFirst x y l with
  | none => (false, l)
  | some (i, t, rest) => if i = 0 then (false, l) else (true, t :: rest)

/-- `TileList::lower`: find the first node containing `(x,y)`; if it exists
and is not the `back` node (`tile != nullptr && tile != back`), detach it,
attach it at the back and return true; otherwise return false. -/
def lower (x y : Int) (l : TileList) : Bool × TileList :=
  match extractFirst x y l with
  | none => (false, l)
  | some (i, t, rest) =>
    if i + 1 = l.length then (false, l) else (true, rest ++ [t])

/-- `TileList::remove`: find the first node containing `(x,y)`; if found,
detach and delete it and return true, else false. -/
def remove (x y : Int) (l : TileList) : Bool × TileList :=
  match extractFirst x y l with
  | none => (false, l)
  | some (_, _, rest) => (true, rest)

/-- Splicing out a found node shortens the list by one (used for the
termination of the `removeAll`/`merge` drain loops). -/
theorem extractFirst_length {x y : Int} :
    ∀ {l : TileList} {i : Nat} {t : Tile} {rest : TileList},
      extractFirst x y l = some (i, t, rest) → rest.length + 1 = l.length := by
  intro l
  induction l with
  | nil => intro i t rest h; simp [extractFirst] at h
  | cons a as ih =>
    intro i t rest h
    by_cases hc : a.contains x y
    · simp [extractFirst, hc] at h
      simp [← h.2.2]
    · rw [extractFirst, if_neg (by simpa using hc)] at h
      rcases Option.map_eq_some'.mp h with ⟨⟨i', t', rest'⟩, hr, hh⟩
      cases hh
      have := ih hr
      simp [List.length_cons]
      omega

/-- `TileList::removeAll`: repeatedly `findTile`, detach and delete until no
node contains `(x,y)`; return the number of nodes deleted. -/
def removeAll (x y : Int) (l : TileList) : Nat × TileList :=
  match h : extractFirst x y l with
  | none => (0, l)
  | some (_, _, rest) =>
    have : rest.length < l.length := by
      have := extractFirst_length h; omega
    let r := removeAll x y rest
    (r.1 + 1, r.2)
  termination_by l.length

/-- The drain loop of `TileList::merge`: repeatedly `findTile`, detach,
fold the node's rectangle into the running bounding box
(`minX`/`minY`/`maxX`/`maxY`, updated by the four `if` comparisons of the
source), delete, and continue until no node contains `(x,y)`. -/
def mergeDrain (x y : Int) (minX minY maxX maxY : Int) (l : TileList) :
    Int × Int × Int × Int × TileList :=
  match h : extractFirst x y l with
  | none => (minX, minY, maxX, maxY, l)
  | some (_, t, rest) =>
    have : rest.length < l.length := by
      have := extractFirst_length h; omega
    mergeDrain x y
      (if t.x < minX then t.x else minX)
      (if t.y < minY then t.y else minY)
      (if t.x + t.width > maxX then t.x + t.width else maxX)
      (if t.y + t.height > maxY then t.y + t.height else maxY)
      rest
  termination_by l.length

/-- `TileList::merge`: if no node contains `(x,y)` return with no change;
otherwise capture the first located node's color and rectangle, drain every
node containing `(x,y)` while accumulating the bounding box (the first node is
drained by the loop as well), then `addFront` a single tile with the
accumulated box and the captured color. -/
def merge (x y : Int) (l : TileList) : TileList :=
  match extractFirst x y l with
  | none => l
  | some (_, t0, _) =>
    let r := mergeDrain x y t0.x t0.y (t0.x + t0.width) (t0.y + t0.height) l
    addFront r.1 r.2.1 (r.2.2.1 - r.1) (r.2.2.2.1 - r.2.1) t0.color r.2.2.2.2

/-- The tiles of `l` whose rectangle contains `(x,y)`, in front-to-back
order (the set the drain loops delete). -/
def matchedTiles (x y : Int) (l : TileList) : TileList :=
  l.filter (fun t => t.contains x y)

/-- The tiles of `l` whose rectangle does not contain `(x,y)`, in
front-to-back order. -/
def unmatchedTiles (x y : Int) (l : TileList) : TileList :=
  l.filter (fun t => !t.contains x y)

/-- `firstMatchAt x y l i t`: in front-to-back order, position `i` of `l`
holds tile `t`, `t` contains `(x,y)`, and no tile at a position before `i`
contains `(x,y)` — i.e. `findTile` locates the node at index `i`. -/
def firstMatchAt (x y : Int) (l : TileList) (i : Nat) (t : Tile) : Prop :=
  l.get? i = some t ∧ t.contains x y = true ∧
    ∀ u ∈ l.take i, u.contains x y = false

instance (x y : Int) (l : TileList) (i : Nat) (t : Tile) :
    Decidable (firstMatchAt x y l i t) := by
  unfold firstMatchAt
  infer_instance

/-! ### Supporting lemmas relating the scan/splice primitive to its
specification-level descriptions. -/

theorem extractFirst_eq_none_iff {x y : Int} {l : TileList} :
    extractFirst x y l = none ↔ ∀ t ∈ l, t.contains x y = false := by
  induction l with
  | nil => simp [extractFirst]
  | cons a as ih =>
    by_cases hc : a.contains x y
    · simp [extractFirst, hc]
    · simp only [extractFirst, if_neg hc, Option.map_eq_none', List.mem_cons]
      rw [ih]
      constructor
      · intro h t ht
        rcases ht with rfl | ht
        · simpa using hc
        · exact h t ht
      · intro h t ht
        exact h t (Or.inr ht)

theorem findTile_eq_extractFirst (x y : Int) (l : TileList) :
    findTile x y l = (extractFirst x y l).map (fun r => r.2.1) := by
  induction l with
  | nil => simp [findTile, extractFirst]
  | cons a as ih =>
    by_cases hc : a.contains x y
    · simp [findTile, extractFirst, hc]
    · simp [findTile, extractFirst, hc, ih, Option.map_map]
      rfl

theorem extractFirst_firstMatchAt {x y : Int} :
    ∀ {l : TileList} {i : Nat} {t : Tile} {rest : TileList},
      extractFirst x y l = some (i, t, rest) → firstMatchAt x y l i t := by
  intro l
  induction l with
  | nil => intro i t rest h; simp [extractFirst] at h
  | cons a as ih =>
    intro i t rest h
    by_cases hc : a.contains x y
    · rw [extractFirst, if_pos hc] at h
      cases h
      refine ⟨rfl, hc, ?_⟩
      intro u hu
      simp at hu
    · rw [extractFirst, if_neg hc] at h
      rcases Option.map_eq_some'.mp h with ⟨⟨i', t', rest'⟩, hr, hh⟩
      cases hh
      obtain ⟨h1, h2, h3⟩ := ih hr
      refine ⟨h1, h2, ?_⟩
      intro u hu
      rcases List.mem_cons.mp (by simpa [List.take_cons] using hu) with rfl | hu'
      · simpa using hc
      · exact h3 u hu'

theorem extractFirst_rest_eq_eraseIdx {x y : Int} :
    ∀ {l : TileList} {i : Nat} {t : Tile} {rest : TileList},
      extractFirst x y l = some (i, t, rest) → rest = l.eraseIdx i := by
  intro l
  induction l with
  | nil => intro i t rest h; simp [extractFirst] at h
  | cons a as ih =>
    intro i t rest h
    by_cases hc : a.contains x y
    · rw [extractFirst, if_pos hc] at h
      cases h
      rfl
    · rw [extractFirst, if_neg hc] at h
      rcases Option.map_eq_some'.mp h with ⟨⟨i', t', rest'⟩, hr, hh⟩
      cases hh
      simp [List.eraseIdx, ih hr]

theorem firstMatchAt_extractFirst {x y : Int} :
    ∀ {l : TileList} {i : Nat} {t : Tile}, firstMatchAt x y l i t →
      extractFirst x y l = some (i, t, l.eraseIdx i) := by
  intro l
  induction l with
  | nil => intro i t h; simp [firstMatchAt] at h
  | cons a as ih =>
    intro i t h
    obtain ⟨h1, h2, h3⟩ := h
    by_cases hc : a.contains x y
    · have hi : i = 0 := by
        by_contra hi
        have ha : a ∈ (a :: as).take i := by
          obtain ⟨i', rfl⟩ : ∃ i', i = i' + 1 := ⟨i - 1, by omega⟩
          simp [List.take_cons]
        have := h3 a ha
        simp [hc] at this
      subst hi
      simp only [List.get?] at h1
      cases h1
      rw [extractFirst, if_pos hc]
      rfl
    · have hi : i ≠ 0 := by
        intro hi; subst hi
        simp only [List.get?] at h1
        cases h1
        exact hc (by simpa using h2)
      obtain ⟨i', rfl⟩ : ∃ i', i = i' + 1 := ⟨i - 1, by omega⟩
      have hrec : firstMatchAt x y as i' t := by
        refine ⟨h1, h2, ?_⟩
        intro u hu
        exact h3 u (by simp [List.take_cons, hu])
      rw [extractFirst, if_neg hc, ih hrec]
      rfl

theorem extractFirst_perm {x y : Int} :
    ∀ {l : TileList} {i : Nat} {t : Tile} {rest : TileList},
      extractFirst x y l = some (i, t, rest) → l.Perm (t :: rest) := by
  intro l
  induction l with
  | nil => intro i t rest h; simp [extractFirst] at h
  | cons a as ih =>
    intro i t rest h
    by_cases hc : a.contains x y
    · rw [extractFirst, if_pos hc] at h
      cases h
      exact List.Perm.refl _
    · rw [extractFirst, if_neg hc] at h
      rcases Option.map_eq_some'.mp h with ⟨⟨i', t', rest'⟩, hr, hh⟩
      cases hh
      exact ((ih hr).cons a).trans (List.Perm.swap _ _ _)

theorem extractFirst_matchedTiles {x y : Int} :
    ∀ {l : TileList} {i : Nat} {t : Tile} {rest : TileList},
      extractFirst x y l = some (i, t, rest) →
        matchedTiles x y l = t :: matchedTiles x y rest ∧
        unmatchedTiles x y l = unmatchedTiles x y rest := by
  intro l
  induction l with
  | nil => intro i t rest h; simp [extractFirst] at h
  | cons a as ih =>
    intro i t rest h
    by_cases hc : a.contains x y
    · rw [extractFirst, if_pos hc] at h
      cases h
      constructor
      · simp [matchedTiles, hc]
      · simp [unmatchedTiles, hc]
    · rw [extractFirst, if_neg hc] at h
      rcases Option.map_eq_some'.mp h with ⟨⟨i', t', rest'⟩, hr, hh⟩
      cases hh
      obtain ⟨hm, hu⟩ := ih hr
      constructor
      · simp [matchedTiles, hc] at hm ⊢
        exact hm
      · simp [unmatchedTiles, hc] at hu ⊢
        exact hu

theorem unmatchedTiles_eq_self {x y : Int} {l : TileList}
    (h : ∀ t ∈ l, t.contains x y = false) : unmatchedTiles x y l = l := by
  rw [unmatchedTiles, List.filter_eq_self]
  intro t ht
  simp [h t ht]

theorem removeAll_of_none {x y : Int} {l : TileList}
    (h : extractFirst x y l = none) : removeAll x y l = (0, l) := by
  rw [removeAll]
  split <;> simp_all

theorem removeAll_of_some {x y : Int} {l : TileList} {i : Nat} {t : Tile}
    {rest : TileList} (h : extractFirst x y l = some (i, t, rest)) :
    removeAll x y l = ((removeAll x y rest).1 + 1, (removeAll x y rest).2) := by
  rw [removeAll]
  split <;> simp_all

theorem mergeDrain_of_none {x y mX mY MX MY : Int} {l : TileList}
    (h : extractFirst x y l = none) :
    mergeDrain x y mX mY MX MY l = (mX, mY, MX, MY, l) := by
  rw [mergeDrain]
  split <;> simp_all

theorem mergeDrain_of_some {x y mX mY MX MY : Int} {l : TileList} {i : Nat}
    {t : Tile} {rest : TileList} (h : extractFirst x y l = some (i, t, rest)) :
    mergeDrain x y mX mY MX MY l =
      mergeDrain x y
        (if t.x < mX then t.x else mX)
        (if t.y < mY then t.y else mY)
        (if t.x + t.width > MX then t.x + t.width else MX)
        (if t.y + t.height > MY then t.y + t.height else MY)
        rest := by
  rw [mergeDrain]
  split <;> simp_all

/-- The `removeAll` drain deletes exactly the tiles containing `(x,y)`, counts
them, and leaves the other tiles in their original relative order. -/
theorem removeAll_eq_filter (x y : Int) (l : TileList) :
    removeAll x y l = ((matchedTiles x y l).length, unmatchedTiles x y l) := by
  have H : ∀ n (l : TileList), l.length ≤ n →
      removeAll x y l = ((matchedTiles x y l).length, unmatchedTiles x y l) := by
    intro n
    induction n with
    | zero =>
      intro l hl
      have : l = [] := List.length_eq_zero.mp (by omega)
      subst this
      rw [removeAll_of_none (by simp [extractFirst])]
      simp [matchedTiles, unmatchedTiles]
    | succ n ih =>
      intro l hl
      match he : extractFirst x y l with
      | none =>
        rw [removeAll_of_none he]
        have hall := extractFirst_eq_none_iff.mp he
        have hm : matchedTiles x y l = [] := by
          rw [matchedTiles, List.filter_eq_nil_iff]
          intro t ht; simp [hall t ht]
        rw [hm, unmatchedTiles_eq_self hall]
        simp
      | some (i, t, rest) =>
        have hlen := extractFirst_length he
        have hrest := ih rest (by omega)
        obtain ⟨hm, hu⟩ := extractFirst_matchedTiles he
        rw [removeAll_of_some he, hrest, hm, hu]
        simp
  exact H l.length l le_rfl

/-- The `merge` drain visits exactly the tiles containing `(x,y)`, folding the
four running min/max bounds over their rectangles, and leaves the other tiles
in their original relative order. -/
theorem mergeDrain_eq_fold (x y : Int) :
    ∀ (l : TileList) (mX mY MX MY : Int),
      mergeDrain x y mX mY MX MY l =
        ((matchedTiles x y l).foldl (fun m t => min m t.x) mX,
         (matchedTiles x y l).foldl (fun m t => min m t.y) mY,
         (matchedTiles x y l).foldl (fun m t => max m (t.x + t.width)) MX,
         (matchedTiles x y l).foldl (fun m t => max m (t.y + t.height)) MY,
         unmatchedTiles x y l) := by
  have H : ∀ n (l : TileList), l.length ≤ n → ∀ mX mY MX MY : Int,
      mergeDrain x y mX mY MX MY l =
        ((matchedTiles x y l).foldl (fun m t => min m t.x) mX,
         (matchedTiles x y l).foldl (fun m t => min m t.y) mY,
         (matchedTiles x y l).foldl (fun m t => max m (t.x + t.width)) MX,
         (matchedTiles x y l).foldl (fun m t => max m (t.y + t.height)) MY,
         unmatchedTiles x y l) := by
    intro n
    induction n with
    | zero =>
      intro l hl mX mY MX MY
      have : l = [] := List.length_eq_zero.mp (by omega)
      subst this
      rw [mergeDrain_of_none (by simp [extractFirst])]
      simp [matchedTiles, unmatchedTiles]
    | succ n ih =>
      intro l hl mX mY MX MY
      match he : extractFirst x y l with
      | none =>
        rw [mergeDrain_of_none he]
        have hall := extractFirst_eq_none_iff.mp he
        have hm : matchedTiles x y l = [] := by
          rw [matchedTiles, List.filter_eq_nil_iff]
          intro t ht; simp [hall t ht]
        rw [hm, unmatchedTiles_eq_self hall]
        simp
      | some (i, t, rest) =>
        have hlen := extractFirst_length he
        obtain ⟨hm, hu⟩ := extractFirst_matchedTiles he
        rw [mergeDrain_of_some he, ih rest (by omega), hm, hu]
        have e1 : (if t.x < mX then t.x else mX) = min mX t.x := by
          rcases le_or_lt mX t.x with h | h <;> simp [min_def, h] <;> omega
        have e2 : (if t.y < mY then t.y else mY) = min mY t.y := by
          rcases le_or_lt mY t.y with h | h <;> simp [min_def, h] <;> omega
        have e3 : (if t.x + t.width > MX then t.x + t.width else MX) =
            max MX (t.x + t.width) := by
          rcases le_or_lt (t.x + t.width) MX with h | h <;>
            simp [max_def, h] <;> omega
        have e4 : (if t.y + t.height > MY then t.y + t.height else MY) =
            max MY (t.y + t.height) := by
          rcases le_or_lt (t.y + t.height) MY with h | h <;>
            simp [max_def, h] <;> omega
        rw [e1, e2, e3, e4]
        simp [List.foldl_cons]
  exact fun l => H l.length l le_rfl

/-! ### The bounding box of a nonempty set of tiles -/

/-- Left edge of the bounding box of the tiles `t0 :: ts`. -/
def bbMinX (t0 : Tile) (ts : List Tile) : Int :=
  ts.foldl (fun m t => min m t.x) t0.x

/-- Top edge of the bounding box of the tiles `t0 :: ts`. -/
def bbMinY (t0 : Tile) (ts : List Tile) : Int :=
  ts.foldl (fun m t => min m t.y) t0.y

/-- Right edge of the bounding box of the tiles `t0 :: ts`. -/
def bbMaxX (t0 : Tile) (ts : List Tile) : Int :=
  ts.foldl (fun m t => max m (t.x + t.width)) (t0.x + t0.width)

/-- Bottom edge of the bounding box of the tiles `t0 :: ts`. -/
def bbMaxY (t0 : Tile) (ts : List Tile) : Int :=
  ts.foldl (fun m t => max m (t.y + t.height)) (t0.y + t0.height)

theorem foldl_min_le_seed (f : Tile → Int) :
    ∀ (ts : List Tile) (s : Int), ts.foldl (fun m t => min m (f t)) s ≤ s := by
  intro ts
  induction ts with
  | nil => intro s; simp
  | cons a as ih =>
    intro s
    calc (a :: as).foldl (fun m t => min m (f t)) s
        = as.foldl (fun m t => min m (f t)) (min s (f a)) := by simp
      _ ≤ min s (f a) := ih _
      _ ≤ s := min_le_left _ _

theorem foldl_min_le_mem (f : Tile → Int) :
    ∀ {ts : List Tile} {t : Tile}, t ∈ ts → ∀ s : Int,
      ts.foldl (fun m t => min m (f t)) s ≤ f t := by
  intro ts
  induction ts with
  | nil => intro t ht; simp at ht
  | cons a as ih =>
    intro t ht s
    rcases List.mem_cons.mp ht with rfl | ht
    · calc (t :: as).foldl (fun m u => min m (f u)) s
          = as.foldl (fun m u => min m (f u)) (min s (f t)) := by simp
        _ ≤ min s (f t) := foldl_min_le_seed f as _
        _ ≤ f t := min_le_right _ _
    · simpa using ih ht (min s (f a))

theorem le_foldl_min (f : Tile → Int) :
    ∀ (ts : List Tile) (s a : Int), a ≤ s → (∀ t ∈ ts, a ≤ f t) →
      a ≤ ts.foldl (fun m t => min m (f t)) s := by
  intro ts
  induction ts with
  | nil => intro s a ha _; simpa using ha
  | cons b bs ih =>
    intro s a ha hall
    have hb : a ≤ f b := hall b (List.mem_cons_self _ _)
    simpa using ih _ a (le_min ha hb) (fun t ht => hall t (List.mem_cons_of_mem _ ht))

theorem seed_le_foldl_max (f : Tile → Int) :
    ∀ (ts : List Tile) (s : Int), s ≤ ts.foldl (fun m t => max m (f t)) s := by
  intro ts
  induction ts with
  | nil => intro s; simp
  | cons a as ih =>
    intro s
    calc s ≤ max s (f a) := le_max_left _ _
      _ ≤ as.foldl (fun m t => max m (f t)) (max s (f a)) := ih _
      _ = (a :: as).foldl (fun m t => max m (f t)) s := by simp

theorem mem_le_foldl_max (f : Tile → Int) :
    ∀ {ts : List Tile} {t : Tile}, t ∈ ts → ∀ s : Int,
      f t ≤ ts.foldl (fun m t => max m (f t)) s := by
  intro ts
  induction ts with
  | nil => intro t ht; simp at ht
  | cons a as ih =>
    intro t ht s
    rcases List.mem_cons.mp ht with rfl | ht
    · calc f t ≤ max s (f t) := le_max_right _ _
        _ ≤ as.foldl (fun m u => max m (f u)) (max s (f t)) :=
            seed_le_foldl_max f as _
        _ = (t :: as).foldl (fun m u => max m (f u)) s := by simp
    · simpa using ih ht (max s (f a))

theorem highlight_of_none {x y : Int} {l : TileList}
    (h : ∀ t ∈ l, t.contains x y = false) : highlight x y l = (false, l) := by
  induction l with
  | nil => rfl
  | cons a as ih =>
    have ha : a.contains x y = false := h a (List.mem_cons_self _ _)
    have ih' := ih (fun t ht => h t (List.mem_cons_of_mem _ ht))
    simp [highlight, ha, ih']

theorem highlight_firstMatchAt {x y : Int} :
    ∀ {l : TileList} {i : Nat} {t : Tile}, firstMatchAt x y l i t →
      highlight x y l = (true, l.set i ⟨t.x, t.y, t.width, t.height, "yellow"⟩) := by
  intro l
  induction l with
  | nil =>
    intro i t h
    obtain ⟨h1, -, -⟩ := h
    simp at h1
  | cons a as ih =>
    intro i t h
    obtain ⟨h1, h2, h3⟩ := h
    by_cases hc : a.contains x y
    · have hi : i = 0 := by
        by_contra hi
        have ha : a ∈ (a :: as).take i := by
          obtain ⟨i', rfl⟩ : ∃ i', i = i' + 1 := ⟨i - 1, by omega⟩
          simp [List.take_cons]
        have := h3 a ha
        simp [hc] at this
      subst hi
      simp only [List.get?] at h1
      cases h1
      simp [highlight, hc, List.set]
    · have hi : i ≠ 0 := by
        intro hi; subst hi
        simp only [List.get?] at h1
        cases h1
        exact hc (by simpa using h2)
      obtain ⟨i', rfl⟩ : ∃ i', i = i' + 1 := ⟨i - 1, by omega⟩
      have hrec : firstMatchAt x y as i' t := by
        refine ⟨h1, h2, ?_⟩
        intro u hu
        exact h3 u (by simp [List.take_cons, hu])
      simp [highlight, hc, ih hrec, List.set]

theorem foldl_max_le (f : Tile → Int) :
    ∀ (ts : List Tile) (s a : Int), s ≤ a → (∀ t ∈ ts, f t ≤ a) →
      ts.foldl (fun m t => max m (f t)) s ≤ a := by
  intro ts
  induction ts with
  | nil => intro s a ha _; simpa using ha
  | cons b bs ih =>
    intro s a ha hall
    have hb : f b ≤ a := hall b (List.mem_cons_self _ _)
    simpa using ih _ a (max_le ha hb) (fun t ht => hall t (List.mem_cons_of_mem _ ht))

/-! ### Claim theorems settled at the list level -/

/-- **C1**: for every collection state and point `(x,y)`, the hit-test
`findTile` returns the first tile in front-to-back order whose rectangle
contains `(x,y)` (it locates a tile exactly when that tile is the first
match at some index), and returns none exactly when no tile contains the
point. -/
theorem findByPoint_first_match_spec (l : TileList) (x y : Int) :
    (∀ t, findTile x y l = some t → ∃ i, firstMatchAt x y l i t) ∧
    (∀ i t, firstMatchAt x y l i t → findTile x y l = some t) ∧
    (findTile x y l = none ↔ ∀ t ∈ l, t.contains x y = false) := by
  refine ⟨?_, ?_, ?_⟩
  · intro t h
    rw [findTile_eq_extractFirst] at h
    rcases Option.map_eq_some'.mp h with ⟨⟨i, t', rest⟩, hr, hh⟩
    obtain rfl : t' = t := hh
    exact ⟨i, extractFirst_firstMatchAt hr⟩
  · intro i t h
    rw [findTile_eq_extractFirst, firstMatchAt_extractFirst h]
    rfl
  · rw [findTile_eq_extractFirst, Option.map_eq_none']
    exact extractFirst_eq_none_iff

/-- Witness for **C1** at the concrete stack `[red, blue]` and point
`(6,6)`: the topmost (front) tile `red` is located. -/
theorem findByPoint_first_match_spec_witness :
    ∃ i, firstMatchAt 6 6 [⟨0, 0, 10, 10, "red"⟩, ⟨5, 5, 10, 10, "blue"⟩]
      i ⟨0, 0, 10, 10, "red"⟩ :=
  (findByPoint_first_match_spec _ 6 6).1 _ (by decide)

/-- **C2**: `raise` returns false when no tile contains `(x,y)` or when the
first matching tile is already at the front (index `0`); otherwise it
detaches that tile, reattaches it at the front and returns true.  `lower`
behaves symmetrically with respect to the back end (index `length - 1`). -/
theorem raise_lower_boundary_spec (l : TileList) (x y : Int) :
    ((∀ t ∈ l, t.contains x y = false) →
        raise x y l = (false, l) ∧ lower x y l = (false, l)) ∧
    (∀ i t, firstMatchAt x y l i t →
        (i = 0 → raise x y l = (false, l)) ∧
        (i ≠ 0 → raise x y l = (true, t :: l.eraseIdx i)) ∧
        (i + 1 = l.length → lower x y l = (false, l)) ∧
        (i + 1 ≠ l.length → lower x y l = (true, l.eraseIdx i ++ [t]))) := by
  constructor
  · intro h
    have he : extractFirst x y l = none := extractFirst_eq_none_iff.mpr h
    exact ⟨by simp [raise, he], by simp [lower, he]⟩
  · intro i t h
    have he := firstMatchAt_extractFirst h
    refine ⟨?_, ?_, ?_, ?_⟩
    · intro h0; simp [raise, he, h0]
    · intro h0; simp [raise, he, h0]
    · intro h0; simp [lower, he, h0]
    · intro h0; simp [lower, he, h0]

/-- Witness for **C2**: on `[blue, red]` with point `(1,1)` only `red` (at
index 1, the back) matches, so `raise` moves it to the front and returns
true while `lower` returns false and changes nothing. -/
theorem raise_lower_boundary_spec_witness :
    raise 1 1 [⟨5, 5, 10, 10, "blue"⟩, ⟨0, 0, 10, 10, "red"⟩] =
      (true, [⟨0, 0, 10, 10, "red"⟩, ⟨5, 5, 10, 10, "blue"⟩]) ∧
    lower 1 1 [⟨5, 5, 10, 10, "blue"⟩, ⟨0, 0, 10, 10, "red"⟩] =
      (false, [⟨5, 5, 10, 10, "blue"⟩, ⟨0, 0, 10, 10, "red"⟩]) := by
  have h := (raise_lower_boundary_spec
      [⟨5, 5, 10, 10, "blue"⟩, ⟨0, 0, 10, 10, "red"⟩] 1 1).2
      1 ⟨0, 0, 10, 10, "red"⟩ (by decide)
  constructor
  · rw [h.2.1 (by decide)]; rfl
  · exact h.2.2.1 (by decide)

/-- Counterexample to **C3** as stated: on the one-tile collection
`[(0,0,1,1,red)]` the point `(0,0)` is contained in a tile, yet `raise`
returns false because the first matching tile is already the front node
(the source guard is `tile != nullptr && tile != front`). -/
theorem raise_match_found_cex :
    (∃ t ∈ ([⟨0, 0, 1, 1, "red"⟩] : TileList), t.contains 0 0 = true) ∧
    (raise 0 0 [⟨0, 0, 1, 1, "red"⟩]).1 = false := by
  decide

/-- **C3 (amended)**: `raise(x,y)` returns true iff some tile contains
`(x,y)` and the first matching tile in front-to-back order is not already
at the front; when the first match is already the front tile, it returns
false (move-occurred semantics, not match-found semantics). -/
theorem raise_true_iff_found_not_front (l : TileList) (x y : Int) :
    (raise x y l).1 = true ↔ ∃ i t, firstMatchAt x y l i t ∧ i ≠ 0 := by
  constructor
  · intro h
    match he : extractFirst x y l with
    | none => rw [raise, he] at h; simp at h
    | some (i, t, rest) =>
      rw [raise, he] at h
      by_cases h0 : i = 0
      · simp [h0] at h
      · exact ⟨i, t, extractFirst_firstMatchAt he, h0⟩
  · rintro ⟨i, t, hfm, hi⟩
    rw [raise, firstMatchAt_extractFirst hfm]
    simp [hi]

/-- Witness for **C3 (amended)**: on `[blue, red]` at `(1,1)` the first
match is at index 1, not the front, and `raise` indeed reports true. -/
theorem raise_true_iff_found_not_front_witness :
    (raise 1 1 [⟨5, 5, 10, 10, "blue"⟩, ⟨0, 0, 10, 10, "red"⟩]).1 = true ∧
    ∃ i t, firstMatchAt 1 1 [⟨5, 5, 10, 10, "blue"⟩, ⟨0, 0, 10, 10, "red"⟩] i t ∧
      i ≠ 0 :=
  ⟨by decide, (raise_true_iff_found_not_front _ 1 1).mp (by decide)⟩

/-- **C4**: when some tile contains `(x,y)` (the matching tiles, in
front-to-back order, being `t0 :: ts`), `merge` removes every tile
containing `(x,y)`, leaves the others in order, and inserts at the front a
single tile whose rectangle is the minimal axis-aligned bounding box of all
removed tiles' full rectangles and whose color is that of the first located
tile `t0`; in particular merging `(0,0,10,10,red)` and `(5,5,10,10,blue)` at
`(6,6)` yields the single tile `(0,0,15,15,red)`. -/
theorem merge_bounding_box_spec :
    (∀ (l : TileList) (x y : Int) (t0 : Tile) (ts : List Tile),
      matchedTiles x y l = t0 :: ts →
        merge x y l =
          ⟨bbMinX t0 ts, bbMinY t0 ts, bbMaxX t0 ts - bbMinX t0 ts,
            bbMaxY t0 ts - bbMinY t0 ts, t0.color⟩ :: unmatchedTiles x y l ∧
        (∀ t ∈ t0 :: ts, bbMinX t0 ts ≤ t.x ∧ t.x + t.width ≤ bbMaxX t0 ts ∧
            bbMinY t0 ts ≤ t.y ∧ t.y + t.height ≤ bbMaxY t0 ts) ∧
        (∀ a b c d : Int,
          (∀ t ∈ t0 :: ts,
            a ≤ t.x ∧ t.x + t.width ≤ b ∧ c ≤ t.y ∧ t.y + t.height ≤ d) →
          a ≤ bbMinX t0 ts ∧ bbMaxX t0 ts ≤ b ∧
          c ≤ bbMinY t0 ts ∧ bbMaxY t0 ts ≤ d)) ∧
    merge 6 6 [⟨0, 0, 10, 10, "red"⟩, ⟨5, 5, 10, 10, "blue"⟩] =
      [⟨0, 0, 15, 15, "red"⟩] := by
  have hgen : ∀ (l : TileList) (x y : Int) (t0 : Tile) (ts : List Tile),
      matchedTiles x y l = t0 :: ts →
        merge x y l =
          ⟨bbMinX t0 ts, bbMinY t0 ts, bbMaxX t0 ts - bbMinX t0 ts,
            bbMaxY t0 ts - bbMinY t0 ts, t0.color⟩ :: unmatchedTiles x y l ∧
        (∀ t ∈ t0 :: ts, bbMinX t0 ts ≤ t.x ∧ t.x + t.width ≤ bbMaxX t0 ts ∧
            bbMinY t0 ts ≤ t.y ∧ t.y + t.height ≤ bbMaxY t0 ts) ∧
        (∀ a b c d : Int,
          (∀ t ∈ t0 :: ts,
            a ≤ t.x ∧ t.x + t.width ≤ b ∧ c ≤ t.y ∧ t.y + t.height ≤ d) →
          a ≤ bbMinX t0 ts ∧ bbMaxX t0 ts ≤ b ∧
          c ≤ bbMinY t0 ts ∧ bbMaxY t0 ts ≤ d) := by
    intro l x y t0 ts hm
    have hne : extractFirst x y l ≠ none := by
      intro he
      have hall := extractFirst_eq_none_iff.mp he
      have : matchedTiles x y l = [] := by
        rw [matchedTiles, List.filter_eq_nil_iff]
        intro t ht; simp [hall t ht]
      rw [hm] at this
      cases this
    obtain ⟨⟨i, t, rest⟩, he⟩ := Option.ne_none_iff_exists'.mp hne
    obtain ⟨hmm, -⟩ := extractFirst_matchedTiles he
    rw [hm] at hmm
    obtain ⟨rfl, hts⟩ : t0 = t ∧ ts = matchedTiles x y rest := by
      cases hmm; exact ⟨rfl, rfl⟩
    refine ⟨?_, ?_, ?_⟩
    · simp only [merge, he]
      rw [mergeDrain_eq_fold, hm]
      simp [addFront, bbMinX, bbMinY, bbMaxX, bbMaxY, min_self, max_self]
    · intro t' ht'
      rcases List.mem_cons.mp ht' with rfl | ht'
      · exact ⟨foldl_min_le_seed _ _ _, seed_le_foldl_max _ _ _,
          foldl_min_le_seed _ _ _, seed_le_foldl_max _ _ _⟩
      · exact ⟨foldl_min_le_mem _ ht' _, mem_le_foldl_max _ ht' _,
          foldl_min_le_mem _ ht' _, mem_le_foldl_max _ ht' _⟩
    · intro a b c d hall
      obtain ⟨ha0, hb0, hc0, hd0⟩ := hall _ (List.mem_cons_self _ _)
      refine ⟨le_foldl_min _ _ _ _ ha0 ?_, foldl_max_le _ _ _ _ hb0 ?_,
        le_foldl_min _ _ _ _ hc0 ?_, foldl_max_le _ _ _ _ hd0 ?_⟩
      · exact fun t' ht' => (hall t' (List.mem_cons_of_mem _ ht')).1
      · exact fun t' ht' => (hall t' (List.mem_cons_of_mem _ ht')).2.1
      · exact fun t' ht' => (hall t' (List.mem_cons_of_mem _ ht')).2.2.1
      · exact fun t' ht' => (hall t' (List.mem_cons_of_mem _ ht')).2.2.2
  refine ⟨hgen, ?_⟩
  have h := hgen [⟨0, 0, 10, 10, "red"⟩, ⟨5, 5, 10, 10, "blue"⟩] 6 6
    ⟨0, 0, 10, 10, "red"⟩ [⟨5, 5, 10, 10, "blue"⟩] (by decide)
  rw [h.1]
  decide

/-- Witness for **C4** (the general part has a hypothesis): applied to the
two-tile overlap example. -/
theorem merge_bounding_box_spec_witness :
    merge 6 6 [⟨0, 0, 10, 10, "red"⟩, ⟨5, 5, 10, 10, "blue"⟩] =
      ⟨bbMinX ⟨0, 0, 10, 10, "red"⟩ [⟨5, 5, 10, 10, "blue"⟩],
       bbMinY ⟨0, 0, 10, 10, "red"⟩ [⟨5, 5, 10, 10, "blue"⟩],
       bbMaxX ⟨0, 0, 10, 10, "red"⟩ [⟨5, 5, 10, 10, "blue"⟩] -
         bbMinX ⟨0, 0, 10, 10, "red"⟩ [⟨5, 5, 10, 10, "blue"⟩],
       bbMaxY ⟨0, 0, 10, 10, "red"⟩ [⟨5, 5, 10, 10, "blue"⟩] -
         bbMinY ⟨0, 0, 10, 10, "red"⟩ [⟨5, 5, 10, 10, "blue"⟩],
       "red"⟩ :: unmatchedTiles 6 6 [⟨0, 0, 10, 10, "red"⟩, ⟨5, 5, 10, 10, "blue"⟩] :=
  (merge_bounding_box_spec.1 _ 6 6 _ _ (by decide)).1

/-- **C5**: `removeAll` removes exactly the tiles containing `(x,y)` and
returns their count; afterwards no tile in the collection contains `(x,y)`,
and the remaining tiles are the containment-free ones in their original
relative order; for three stacked tiles all covering a point it returns 3. -/
theorem removeAll_drains_spec :
    (∀ (l : TileList) (x y : Int),
        removeAll x y l = ((matchedTiles x y l).length, unmatchedTiles x y l)) ∧
    (∀ (l : TileList) (x y : Int) (t : Tile),
        t ∈ (removeAll x y l).2 → t.contains x y = false) ∧
    removeAll 1 1 [⟨0, 0, 5, 5, "a"⟩, ⟨0, 0, 5, 5, "b"⟩, ⟨1, 1, 5, 5, "c"⟩] =
      (3, []) := by
  refine ⟨fun l x y => removeAll_eq_filter x y l, ?_, ?_⟩
  · intro l x y t ht
    rw [removeAll_eq_filter] at ht
    simp only [unmatchedTiles, List.mem_filter] at ht
    simpa using ht.2
  · rw [removeAll_eq_filter]
    decide

/-- Witness for **C5**: for a tile not containing the drained point, it
survives `removeAll` and indeed does not contain the point. -/
theorem removeAll_drains_spec_witness :
    (⟨0, 0, 5, 5, "a"⟩ : Tile) ∈ (removeAll 9 9 [⟨0, 0, 5, 5, "a"⟩]).2 ∧
    (⟨0, 0, 5, 5, "a"⟩ : Tile).contains 9 9 = false := by
  have hm : (⟨0, 0, 5, 5, "a"⟩ : Tile) ∈ (removeAll 9 9 [⟨0, 0, 5, 5, "a"⟩]).2 := by
    rw [removeAll_drains_spec.1]
    decide
  exact ⟨hm, removeAll_drains_spec.2.1 _ 9 9 _ hm⟩

/-- **C6**: on the empty collection, and whenever no tile contains the
queried point, `findTile` returns none, `highlight`/`raise`/`lower`/`remove`
return false, `removeAll` returns 0, and `merge` leaves the collection
unchanged; no operation partially mutates the state. -/
theorem empty_nomatch_noop_spec :
    (∀ x y : Int,
        findTile x y ([] : TileList) = none ∧
        highlight x y ([] : TileList) = (false, []) ∧
        raise x y ([] : TileList) = (false, []) ∧
        lower x y ([] : TileList) = (false, []) ∧
        remove x y ([] : TileList) = (false, []) ∧
        removeAll x y ([] : TileList) = (0, []) ∧
        merge x y ([] : TileList) = []) ∧
    (∀ (l : TileList) (x y : Int), (∀ t ∈ l, t.contains x y = false) →
        findTile x y l = none ∧ highlight x y l = (false, l) ∧
        raise x y l = (false, l) ∧ lower x y l = (false, l) ∧
        remove x y l = (false, l) ∧ removeAll x y l = (0, l) ∧
        merge x y l = l) := by
  have main : ∀ (l : TileList) (x y : Int), (∀ t ∈ l, t.contains x y = false) →
      findTile x y l = none ∧ highlight x y l = (false, l) ∧
      raise x y l = (false, l) ∧ lower x y l = (false, l) ∧
      remove x y l = (false, l) ∧ removeAll x y l = (0, l) ∧
      merge x y l = l := by
    intro l x y h
    have he : extractFirst x y l = none := extractFirst_eq_none_iff.mpr h
    refine ⟨?_, highlight_of_none h, ?_, ?_, ?_, removeAll_of_none he, ?_⟩
    · rw [findTile_eq_extractFirst, he]; rfl
    · simp [raise, he]
    · simp [lower, he]
    · simp [remove, he]
    · simp [merge, he]
  exact ⟨fun x y => main [] x y (by simp), main⟩

/-- Witness for **C6**: a collection whose only tile misses the point is
left unchanged by `merge`. -/
theorem empty_nomatch_noop_spec_witness :
    (∀ t ∈ ([⟨0, 0, 2, 2, "red"⟩] : TileList), t.contains 5 5 = false) ∧
    merge 5 5 [⟨0, 0, 2, 2, "red"⟩] = [⟨0, 0, 2, 2, "red"⟩] :=
  ⟨by decide, (empty_nomatch_noop_spec.2 _ 5 5 (by decide)).2.2.2.2.2.2⟩

/-- **C8**: for every `raise`, `lower` or `remove` call that locates its
first match at index `i`, the tiles other than the moved/removed one keep
exactly their original relative order (`l.eraseIdx i` is that subsequence),
and for `raise`/`lower` the resulting collection is a permutation of the
original, so a subsequent front-to-back traversal visits every live tile
exactly once. -/
theorem reorder_frame_spec (l : TileList) (x y : Int) (i : Nat) (t : Tile)
    (h : firstMatchAt x y l i t) :
    (i ≠ 0 → (raise x y l).2 = t :: l.eraseIdx i ∧ ((raise x y l).2).Perm l) ∧
    (i + 1 ≠ l.length →
        (lower x y l).2 = l.eraseIdx i ++ [t] ∧ ((lower x y l).2).Perm l) ∧
    (remove x y l).2 = l.eraseIdx i := by
  have he := firstMatchAt_extractFirst h
  have hperm : l.Perm (t :: l.eraseIdx i) := extractFirst_perm he
  refine ⟨?_, ?_, ?_⟩
  · intro h0
    refine ⟨by simp [raise, he, h0], ?_⟩
    simp only [raise, he]
    rw [if_neg h0]
    exact hperm.symm
  · intro h0
    refine ⟨by simp [lower, he, h0], ?_⟩
    simp only [lower, he]
    rw [if_neg h0]
    exact (List.perm_append_singleton _ _).trans hperm.symm
  · simp [remove, he]

/-- Witness for **C8**: on `[blue, red]` at `(1,1)` (first match at index 1),
the raised collection is a permutation of the original and `remove` leaves
exactly the other tile. -/
theorem reorder_frame_spec_witness :
    ((raise 1 1 [⟨5, 5, 10, 10, "blue"⟩, ⟨0, 0, 10, 10, "red"⟩]).2).Perm
      [⟨5, 5, 10, 10, "blue"⟩, ⟨0, 0, 10, 10, "red"⟩] ∧
    (remove 1 1 [⟨5, 5, 10, 10, "blue"⟩, ⟨0, 0, 10, 10, "red"⟩]).2 =
      ([⟨5, 5, 10, 10, "blue"⟩, ⟨0, 0, 10, 10, "red"⟩] : TileList).eraseIdx 1 := by
  have h := reorder_frame_spec [⟨5, 5, 10, 10, "blue"⟩, ⟨0, 0, 10, 10, "red"⟩]
    1 1 1 ⟨0, 0, 10, 10, "red"⟩ (by decide)
  exact ⟨(h.1 (by decide)).2, h.2.2⟩

/-- **C9**: `addFront` and `addBack` never fail: each inserts exactly one
new tile at the named end carrying exactly the caller-supplied geometry and
color (no rejection or clamping, the width and height being arbitrary
integers), and the collection size grows by exactly one. -/
theorem add_operations_total_spec (x y w h : Int) (c : String) (l : TileList) :
    addFront x y w h c l = ⟨x, y, w, h, c⟩ :: l ∧
    addBack x y w h c l = l ++ [⟨x, y, w, h, c⟩] ∧
    (addFront x y w h c l).head? = some ⟨x, y, w, h, c⟩ ∧
    (addFront x y w h c l).tail = l ∧
    (addBack x y w h c l).getLast? = some ⟨x, y, w, h, c⟩ ∧
    (addBack x y w h c l).dropLast = l ∧
    (addFront x y w h c l).length = l.length + 1 ∧
    (addBack x y w h c l).length = l.length + 1 := by
  refine ⟨rfl, rfl, rfl, rfl, ?_, ?_, ?_, ?_⟩
  · simp [addBack, List.getLast?_concat]
  · simp [addBack, List.dropLast_concat]
  · simp [addFront]
  · simp [addBack]

/-- **C10**: when some tile contains `(x,y)`, `highlight` sets the color of
the first matching tile (at index `i`) to exactly `"yellow"`, keeping its
geometry, every other tile, and the order unchanged (the result is
`l.set i` of the yellow-colored tile), and returns true; with no match it
returns false and changes nothing. -/
theorem highlight_spec (l : TileList) (x y : Int) :
    ((∀ t ∈ l, t.contains x y = false) → highlight x y l = (false, l)) ∧
    (∀ i t, firstMatchAt x y l i t →
        highlight x y l = (true, l.set i ⟨t.x, t.y, t.width, t.height, "yellow"⟩)) :=
  ⟨fun h => highlight_of_none h, fun _ _ h => highlight_firstMatchAt h⟩

/-- Witness for **C10**: highlighting `[blue, red]` at `(6,6)` recolors the
front tile to yellow and keeps everything else. -/
theorem highlight_spec_witness :
    highlight 6 6 [⟨5, 5, 10, 10, "blue"⟩, ⟨0, 0, 10, 10, "red"⟩] =
      (true, [⟨5, 5, 10, 10, "yellow"⟩, ⟨0, 0, 10, 10, "red"⟩]) := by
  have h := (highlight_spec [⟨5, 5, 10, 10, "blue"⟩, ⟨0, 0, 10, 10, "red"⟩] 6 6).2
    0 ⟨5, 5, 10, 10, "blue"⟩ (by decide)
  rw [h]
  rfl

end TileListModel

namespace TileHeap

/-- A heap node of the doubly-linked list: the tile data together with the
`prev` and `next` pointer fields of `TileNode` (`none` = null). -/
structure Node where
  tile : Tile
  prev : Option Nat
  next : Option Nat
  deriving Repr

/-- Pointer-level state of a `TileList`: node storage addressed by `Nat`
pointers (`none` = unallocated or freed), the two member pointers `front`
and `back`, and an allocation counter that delivers fresh addresses for
`new TileNode(...)`. -/
structure Heap where
  mem : Nat → Option Node
  front : Option Nat
  back : Option Nat
  nextId : Nat

/-- `TileList::TileList()`: `front = nullptr; back = nullptr;` over an
empty store. -/
def emptyHeap : Heap := ⟨fun _ => none, none, none, 0⟩

/-- Dereference a pointer.  Dereferencing an unallocated pointer is
undefined behaviour in the C++; the model returns a junk node, which no
theorem's hypotheses ever let it observe. -/
def readNode (hp : Heap) (p : Nat) : Node :=
  (hp.mem p).getD ⟨⟨0, 0, 0, 0, ""⟩, none, none⟩

/-- Store a node at a pointer. -/
def writeNode (hp : Heap) (p : Nat) (n : Node) : Heap :=
  { hp with mem := fun q => if q = p then some n else hp.mem q }

/-- `delete tile`: the node's storage is freed. -/
def freeNode (hp : Heap) (p : Nat) : Heap :=
  { hp with mem := fun q => if q = p then none else hp.mem q }

/-- `TileList::detachTile`, statement by statement:
`if (tile != front) tile->prev->next = tile->next; else front = tile->next;`
then
`if (tile != back) tile->next->prev = tile->prev; else back = tile->prev;`
(a null `tile->prev`/`tile->next` dereference, impossible on well-formed
states, is modelled as a no-op). -/
def detachTile (hp : Heap) (t : Nat) : Heap :=
  let tn := readNode hp t
  let h1 :=
    if hp.front = some t then { hp with front := tn.next }
    else
      match tn.prev with
      | some p => writeNode hp p { readNode hp p with next := tn.next }
      | none => hp
  if h1.back = some t then { h1 with back := tn.prev }
  else
    match tn.next with
    | some q => writeNode h1 q { readNode h1 q with prev := tn.prev }
    | none => h1

/-- `TileList::attachFront`: `newFront->prev = nullptr;` then either the
empty-list branch (`front = newFront; back = front;`) or
`newFront->next = front; front->prev = newFront; front = newFront;`. -/
def attachFront (hp : Heap) (nf : Nat) : Heap :=
  let h0 := writeNode hp nf { readNode hp nf with prev := none }
  match h0.front with
  | none => { h0 with front := some nf, back := some nf }
  | some f =>
    let h1 := writeNode h0 nf { readNode h0 nf with next := some f }
    let h2 := writeNode h1 f { readNode h1 f with prev := some nf }
    { h2 with front := some nf }

/-- `TileList::attachBack`: `newBack->next = nullptr;` then either the
empty-list branch (`front = newBack; back = front;`) or
`newBack->prev = back; back->next = newBack; back = newBack;` (a null
`back` with non-null `front` would be a null dereference; modelled as a
no-op). -/
def attachBack (hp : Heap) (nb : Nat) : Heap :=
  let h0 := writeNode hp nb { readNode hp nb with next := none }
  match h0.front with
  | none => { h0 with front := some nb, back := some nb }
  | some _ =>
    match h0.back with
    | none => h0
    | some b =>
      let h1 := writeNode h0 nb { readNode h0 nb with prev := h0.back }
      let h2 := writeNode h1 b { readNode h1 b with next := some nb }
      { h2 with back := some nb }

/-- `TileList::addFront`: allocate `new TileNode(x, y, w, h, c, nullptr,
nullptr)` at a fresh address and attach it at the front. -/
def addFront (hp : Heap) (x y w h : Int) (c : String) : Heap :=
  let id := hp.nextId
  let hp' : Heap :=
    { mem := fun q => if q = id then some ⟨⟨x, y, w, h, c⟩, none, none⟩ else hp.mem q,
      front := hp.front, back := hp.back, nextId := id + 1 }
  attachFront hp' id

/-- `TileList::addBack`: allocate a fresh node and attach it at the back. -/
def addBack (hp : Heap) (x y w h : Int) (c : String) : Heap :=
  let id := hp.nextId
  let hp' : Heap :=
    { mem := fun q => if q = id then some ⟨⟨x, y, w, h, c⟩, none, none⟩ else hp.mem q,
      front := hp.front, back := hp.back, nextId := id + 1 }
  attachBack hp' id

/-- The traversal of `TileList::findTile` from a cursor, following `next`
pointers; `fuel` bounds the number of dereferences (on well-formed states a
fuel of `nextId` always suffices, since the chain is cycle-free and shorter
than the number of allocated nodes). -/
def findFrom (hp : Heap) (x y : Int) : Option Nat → Nat → Option Nat
  | _, 0 => none
  | none, _ => none
  | some p, fuel + 1 =>
    if (readNode hp p).tile.contains x y then some p
    else findFrom hp x y (readNode hp p).next fuel

/-- `TileList::findTile`: scan from `front`. -/
def findTile (hp : Heap) (x y : Int) (fuel : Nat) : Option Nat :=
  findFrom hp x y hp.front fuel

/-- `TileList::highlight` at the pointer level: recolor the found node in
place. -/
def highlight (hp : Heap) (x y : Int) (fuel : Nat) : Bool × Heap :=
  match findTile hp x y fuel with
  | none => (false, hp)
  | some t =>
    let n := readNode hp t
    (true, writeNode hp t { n with tile := { n.tile with color := "yellow" } })

/-- `TileList::raise` at the pointer level: the guard is the pointer
comparison `tile != nullptr && tile != front`. -/
def raise (hp : Heap) (x y : Int) (fuel : Nat) : Bool × Heap :=
  match findTile hp x y fuel with
  | none => (false, hp)
  | some t =>
    if hp.front = some t then (false, hp)
    else (true, attachFront (detachTile hp t) t)

/-- `TileList::lower` at the pointer level: the guard is the pointer
comparison `tile != nullptr && tile != back`. -/
def lower (hp : Heap) (x y : Int) (fuel : Nat) : Bool × Heap :=
  match findTile hp x y fuel with
  | none => (false, hp)
  | some t =>
    if hp.back = some t then (false, hp)
    else (true, attachBack (detachTile hp t) t)

/-- `TileList::remove` at the pointer level: detach then delete. -/
def remove (hp : Heap) (x y : Int) (fuel : Nat) : Bool × Heap :=
  match findTile hp x y fuel with
  | none => (false, hp)
  | some t => (true, freeNode (detachTile hp t) t)

/-- The `TileList::removeAll` loop: find, detach, delete, repeat; `steps`
bounds the iterations (a bound of `nextId` always suffices on well-formed
states, each iteration freeing one allocated node). -/
def removeAllLoop (x y : Int) (fuel : Nat) : Nat → Heap → Nat × Heap
  | 0, hp => (0, hp)
  | steps + 1, hp =>
    match findTile hp x y fuel with
    | none => (0, hp)
    | some t =>
      let r := removeAllLoop x y fuel steps (freeNode (detachTile hp t) t)
      (r.1 + 1, r.2)

/-- `TileList::removeAll` at the pointer level. -/
def removeAll (hp : Heap) (x y : Int) : Nat × Heap :=
  removeAllLoop x y hp.nextId hp.nextId hp

/-- The `TileList::merge` drain loop at the pointer level: find, detach,
fold the node's rectangle into the running bounds with the four source
comparisons, delete, repeat. -/
def mergeLoop (x y : Int) (fuel : Nat) :
    Nat → Int → Int → Int → Int → Heap → Int × Int × Int × Int × Heap
  | 0, mX, mY, MX, MY, hp => (mX, mY, MX, MY, hp)
  | steps + 1, mX, mY, MX, MY, hp =>
    match findTile hp x y fuel with
    | none => (mX, mY, MX, MY, hp)
    | some t =>
      let n := readNode hp t
      mergeLoop x y fuel steps
        (if n.tile.x < mX then n.tile.x else mX)
        (if n.tile.y < mY then n.tile.y else mY)
        (if n.tile.x + n.tile.width > MX then n.tile.x + n.tile.width else MX)
        (if n.tile.y + n.tile.height > MY then n.tile.y + n.tile.height else MY)
        (freeNode (detachTile hp t) t)

/-- `TileList::merge` at the pointer level: capture the first node's color
and rectangle, drain, then `addFront` the bounding box. -/
def merge (hp : Heap) (x y : Int) : Heap :=
  match findTile hp x y hp.nextId with
  | none => hp
  | some t0 =>
    let n0 := readNode hp t0
    let r := mergeLoop x y hp.nextId hp.nextId n0.tile.x n0.tile.y
      (n0.tile.x + n0.tile.width) (n0.tile.y + n0.tile.height) hp
    addFront r.2.2.2.2 r.1 r.2.1 (r.2.2.1 - r.1) (r.2.2.2.1 - r.2.1) n0.tile.color

/-- The `TileList::clear` deletion loop: `while(front != back)` delete the
front node and advance `front`; bounded by `steps`. -/
def clearLoop : Nat → Heap → Heap
  | 0, hp => hp
  | steps + 1, hp =>
    if hp.front = hp.back then hp
    else
      match hp.front with
      | none => hp
      | some f => clearLoop steps (freeNode { hp with front := (readNode hp f).next } f)

/-- `TileList::clear`: run the deletion loop, then
`front = nullptr; back = nullptr;`. -/
def clear (hp : Heap) : Heap :=
  let hp' := clearLoop hp.nextId hp
  { hp' with front := none, back := none }

/-- The public mutating operations of `TileList`, as an operation
alphabet. -/
inductive Op where
  | addFront (x y w h : Int) (c : String)
  | addBack (x y w h : Int) (c : String)
  | highlight (x y : Int)
  | raise (x y : Int)
  | lower (x y : Int)
  | remove (x y : Int)
  | removeAll (x y : Int)
  | merge (x y : Int)
  | clear

/-- Run one public operation on the pointer-level state (loops and scans
receive the always-sufficient fuel `nextId`). -/
def applyOp (hp : Heap) : Op → Heap
  | .addFront x y w h c => addFront hp x y w h c
  | .addBack x y w h c => addBack hp x y w h c
  | .highlight x y => (highlight hp x y hp.nextId).2
  | .raise x y => (raise hp x y hp.nextId).2
  | .lower x y => (lower hp x y hp.nextId).2
  | .remove x y => (remove hp x y hp.nextId).2
  | .removeAll x y => (removeAll hp x y).2
  | .merge x y => merge hp x y
  | .clear => clear hp

/-- The last pointer of a pointer list, else the given boundary. -/
def lastO (pr : Option Nat) (as : List Nat) : Option Nat :=
  match as.getLast? with
  | none => pr
  | some a => some a

/-- The first pointer of a pointer list, else the given boundary. -/
def headO (nx : Option Nat) (bs : List Nat) : Option Nat :=
  match bs with
  | [] => nx
  | b :: _ => some b

/-- `chain hp pr ids nx`: the pointers `ids` form a doubly-linked chain in
heap `hp` read left to right: each node exists, the first node's `prev` is
`pr`, consecutive nodes point at each other in both directions, and the
last node's `next` is `nx`. -/
def chain (hp : Heap) : Option Nat → List Nat → Option Nat → Prop
  | _, [], _ => True
  | pr, i :: rest, nx =>
    ∃ n, hp.mem i = some n ∧ n.prev = pr ∧ n.next = headO nx rest ∧
      chain hp (some i) rest nx

/-- `represents hp ids`: the heap is a well-formed doubly-linked list whose
front-to-back node sequence is `ids`: `front` and `back` are the two ends
(both null exactly when the list is empty), the nodes form a cycle-free
doubly-linked chain with mutually inverse `prev`/`next`, no node address
repeats, and every node address was delivered by the allocator. -/
def represents (hp : Heap) (ids : List Nat) : Prop :=
  hp.front = ids.head? ∧ hp.back = ids.getLast? ∧ ids.Nodup ∧
  chain hp none ids none ∧ ∀ i ∈ ids, i < hp.nextId

/-- Structural well-formedness: some front-to-back node sequence is
represented. -/
def Wf (hp : Heap) : Prop := ∃ ids, represents hp ids

/-! ### Heap access lemmas -/

theorem writeNode_mem_self (hp : Heap) (p : Nat) (n : Node) :
    (writeNode hp p n).mem p = some n := by simp [writeNode]

theorem writeNode_mem_ne (hp : Heap) {q p : Nat} (h : q ≠ p) (n : Node) :
    (writeNode hp p n).mem q = hp.mem q := by simp [writeNode, h]

theorem writeNode_front (hp : Heap) (p : Nat) (n : Node) :
    (writeNode hp p n).front = hp.front := rfl

theorem writeNode_back (hp : Heap) (p : Nat) (n : Node) :
    (writeNode hp p n).back = hp.back := rfl

theorem writeNode_nextId (hp : Heap) (p : Nat) (n : Node) :
    (writeNode hp p n).nextId = hp.nextId := rfl

theorem freeNode_mem_ne (hp : Heap) {q p : Nat} (h : q ≠ p) :
    (freeNode hp p).mem q = hp.mem q := by simp [freeNode, h]

theorem readNode_writeNode_self (hp : Heap) (p : Nat) (n : Node) :
    readNode (writeNode hp p n) p = n := by simp [readNode, writeNode]

theorem readNode_writeNode_ne (hp : Heap) {q p : Nat} (h : q ≠ p) (n : Node) :
    readNode (writeNode hp p n) q = readNode hp q := by
  simp [readNode, writeNode, h]

/-! ### Chain lemmas -/

theorem lastO_cons (pr : Option Nat) (a : Nat) (as : List Nat) :
    lastO pr (a :: as) = lastO (some a) as := by
  cases as with
  | nil => simp [lastO]
  | cons b bs =>
    simp only [lastO, List.getLast?_cons_cons]
    cases h : (b :: bs).getLast? with
    | none => simp at h
    | some c => rfl

theorem headO_append (nx : Option Nat) (t : Nat) (as bs : List Nat) :
    headO nx (as ++ t :: bs) = headO (some t) as := by
  cases as <;> rfl

theorem headO_none_eq_head? (bs : List Nat) : headO none bs = bs.head? := by
  cases bs <;> rfl

/-- A chain is insensitive to heap changes that keep every member node
present with the same `prev` and `next` fields. -/
theorem chain_congr {hp hp' : Heap} :
    ∀ {ids : List Nat} {pr nx : Option Nat},
      (∀ i ∈ ids, ∀ n, hp.mem i = some n →
        ∃ n', hp'.mem i = some n' ∧ n'.prev = n.prev ∧ n'.next = n.next) →
      chain hp pr ids nx → chain hp' pr ids nx := by
  intro ids
  induction ids with
  | nil => intro pr nx _ _; trivial
  | cons i rest ih =>
    intro pr nx hsame hch
    obtain ⟨n, hmem, hprev, hnext, hrest⟩ := hch
    obtain ⟨n', hmem', hp', hn'⟩ := hsame i (List.mem_cons_self _ _) n hmem
    exact ⟨n', hmem', by rw [hp', hprev], by rw [hn', hnext],
      ih (fun j hj => hsame j (List.mem_cons_of_mem _ hj)) hrest⟩

theorem chain_congr_of_eq {hp hp' : Heap} {ids : List Nat} {pr nx : Option Nat}
    (hsame : ∀ i ∈ ids, hp'.mem i = hp.mem i) (hch : chain hp pr ids nx) :
    chain hp' pr ids nx :=
  chain_congr (fun i hi n hm => ⟨n, by rw [hsame i hi]; exact hm, rfl, rfl⟩) hch

/-- Splitting a chain at a distinguished member: the member's node exists,
its `prev` is the last of the left part (or the left boundary), its `next`
is the first of the right part (or the right boundary), and both parts are
chains with the member as their shared boundary. -/
theorem chain_append_split {hp : Heap} (bs : List Nat) :
    ∀ (as : List Nat) {t : Nat} {pr nx : Option Nat},
      chain hp pr (as ++ t :: bs) nx →
      ∃ n, hp.mem t = some n ∧ n.prev = lastO pr as ∧ n.next = headO nx bs ∧
        chain hp pr as (some t) ∧ chain hp (some t) bs nx := by
  intro as
  induction as with
  | nil =>
    intro t pr nx hch
    obtain ⟨n, hmem, hprev, hnext, hrest⟩ := hch
    exact ⟨n, hmem, by simpa [lastO] using hprev, hnext, trivial, hrest⟩
  | cons a as' ih =>
    intro t pr nx hch
    obtain ⟨n, hmem, hprev, hnext, hrest⟩ := hch
    simp only [List.append_eq] at hnext hrest
    obtain ⟨nt, hmt, hptv, hntx, hchas', hchbs⟩ := ih hrest
    refine ⟨nt, hmt, ?_, hntx, ?_, hchbs⟩
    · rw [hptv, lastO_cons]
    · exact ⟨n, hmem, hprev, by rw [hnext, headO_append], hchas'⟩

/-- Joining two chains whose boundary pointers agree. -/
theorem chain_append_of {hp : Heap} (bs : List Nat) :
    ∀ (as : List Nat) {pr nx : Option Nat},
      chain hp pr as (headO nx bs) → chain hp (lastO pr as) bs nx →
      chain hp pr (as ++ bs) nx := by
  intro as
  induction as with
  | nil =>
    intro pr nx _ h2
    simpa [lastO] using h2
  | cons a as' ih =>
    intro pr nx h1 h2
    obtain ⟨n, hmem, hprev, hnext, hrest⟩ := h1
    refine ⟨n, hmem, hprev, ?_, ih hrest (by rwa [lastO_cons] at h2)⟩
    rw [hnext]
    cases as' with
    | nil => cases bs <;> rfl
    | cons c cs => rfl

/-- Rewiring the `prev` field of the head of a chain. -/
theorem chain_update_head_prev {hp hp' : Heap} {b : Nat} {bs : List Nat}
    {pr pr' nx : Option Nat} (hch : chain hp pr (b :: bs) nx)
    (hb : ∀ n, hp.mem b = some n → hp'.mem b = some { n with prev := pr' })
    (hsame : ∀ i ∈ bs, hp'.mem i = hp.mem i) :
    chain hp' pr' (b :: bs) nx := by
  obtain ⟨n, hmem, hprev, hnext, hrest⟩ := hch
  exact ⟨{ n with prev := pr' }, hb n hmem, rfl, hnext,
    chain_congr_of_eq hsame hrest⟩

/-- Rewiring the `next` field of the last node of a chain. -/
theorem chain_update_last_next {hp hp' : Heap} {as' : List Nat} {p : Nat}
    {pr nx nx' : Option Nat} (hch : chain hp pr (as' ++ [p]) nx)
    (hmm : ∀ n, hp.mem p = some n → hp'.mem p = some { n with next := nx' })
    (hsame : ∀ i ∈ as', hp'.mem i = hp.mem i) :
    chain hp' pr (as' ++ [p]) nx' := by
  obtain ⟨n, hmem, hprev, -, hchas', -⟩ := chain_append_split [] _ hch
  apply chain_append_of [p] as'
  · exact chain_congr_of_eq hsame hchas'
  · exact ⟨{ n with next := nx' }, hmm n hmem, hprev, rfl, trivial⟩

/-- Every pointer the `findTile` scan can return lies on the chain it
scans. -/
theorem findFrom_mem {hp : Heap} {x y : Int} :
    ∀ (fuel : Nat) (s : List Nat) (pr : Option Nat) (t : Nat),
      chain hp pr s none → findFrom hp x y s.head? fuel = some t → t ∈ s := by
  intro fuel
  induction fuel with
  | zero =>
    intro s pr t _ h
    simp [findFrom] at h
  | succ fuel ih =>
    intro s pr t hch hf
    cases s with
    | nil => simp [findFrom] at hf
    | cons p s' =>
      obtain ⟨n, hmem, hprev, hnext, hrest⟩ := hch
      have hrd : readNode hp p = n := by simp [readNode, hmem]
      by_cases hc : (n.tile).contains x y
      · simp only [List.head?, findFrom, hrd, hc, if_true] at hf
        cases hf
        exact List.mem_cons_self _ _
      · simp only [List.head?, findFrom, hrd, hc, if_false] at hf
        have hnhd : n.next = s'.head? := by rw [hnext, headO_none_eq_head?]
        rw [hnhd] at hf
        exact List.mem_cons_of_mem _ (ih s' (some p) t hrest hf)

theorem findTile_mem {hp : Heap} {ids : List Nat} {x y : Int} {fuel : Nat}
    {t : Nat} (h : represents hp ids) (hf : findTile hp x y fuel = some t) :
    t ∈ ids := by
  obtain ⟨hfr, -, -, hch, -⟩ := h
  rw [findTile, hfr] at hf
  exact findFrom_mem fuel ids none t hch hf

/-- `detachTile` on the node at position `|as|` of the represented sequence
yields the heap representing the sequence with that node spliced out; the
detached node's own storage and the allocation counter are untouched. -/
theorem detach_represents {hp : Heap} {as bs : List Nat} {t : Nat}
    (h : represents hp (as ++ t :: bs)) :
    represents (detachTile hp t) (as ++ bs) ∧
    (detachTile hp t).mem t = hp.mem t ∧
    (detachTile hp t).nextId = hp.nextId := by
  obtain ⟨hf, hb, hnd, hch, hcnt⟩ := h
  obtain ⟨nt, hmt, hpv, hnx, hchas, hchbs⟩ := chain_append_split _ _ hch
  have hrd : readNode hp t = nt := by simp [readNode, hmt]
  have hndas : as.Nodup := (List.nodup_append.mp hnd).1
  have hndtbs : (t :: bs).Nodup := (List.nodup_append.mp hnd).2.1
  have hdisj : as.Disjoint (t :: bs) := (List.nodup_append.mp hnd).2.2
  have htas : t ∉ as := fun hta => hdisj hta (List.mem_cons_self _ _)
  have htbs : t ∉ bs := (List.nodup_cons.mp hndtbs).1
  have hndbs : bs.Nodup := (List.nodup_cons.mp hndtbs).2
  have hcnt' : ∀ i ∈ as ++ bs, i < hp.nextId := by
    intro i hi
    rcases List.mem_append.mp hi with hi | hi
    · exact hcnt i (List.mem_append.mpr (Or.inl hi))
    · exact hcnt i (List.mem_append.mpr (Or.inr (List.mem_cons_of_mem _ hi)))
  have hndab : (as ++ bs).Nodup := by
    rw [List.nodup_append]
    exact ⟨hndas, hndbs, fun a ha hb2 => hdisj ha (List.mem_cons_of_mem _ hb2)⟩
  cases as with
  | nil =>
    have hf' : hp.front = some t := by simpa using hf
    have hpv' : nt.prev = none := by simpa [lastO] using hpv
    cases bs with
    | nil =>
      have hb' : hp.back = some t := by simpa using hb
      have hnx' : nt.next = none := by simpa [headO] using hnx
      have hred : detachTile hp t = { hp with front := none, back := none } := by
        simp only [detachTile, hrd, hpv', hnx']
        rw [if_pos hf']
        rw [if_pos (show ({ hp with front := (none : Option Nat) } : Heap).back
          = some t from hb')]
      refine ⟨?_, by rw [hred], by rw [hred]⟩
      rw [hred]
      exact ⟨rfl, rfl, List.nodup_nil, trivial, by intro i hi; simp at hi⟩
    | cons b bs' =>
      have hb' : hp.back = (b :: bs').getLast? := by
        rw [hb]; rfl
      have hbne : hp.back ≠ some t := by
        rw [hb']
        intro hEq
        exact htbs (List.mem_of_getLast?_eq_some hEq)
      have hnx' : nt.next = some b := by simpa [headO] using hnx
      obtain ⟨nb, hmb, hnbp, hnbn, hrestb⟩ := hchbs
      have hrdb : readNode { hp with front := some b } b = nb := by
        simp [readNode, hmb]
      have hred : detachTile hp t =
          writeNode { hp with front := some b } b { nb with prev := none } := by
        simp only [detachTile, hrd, hpv', hnx']
        rw [if_pos hf']
        rw [if_neg (show ({ hp with front := some b } : Heap).back ≠ some t
          from hbne)]
        rw [hrdb]
      refine ⟨?_, ?_, by rw [hred]; rfl⟩
      · rw [hred]
        refine ⟨rfl, hb', by simpa using hndbs, ?_, ?_⟩
        · show chain _ none ([] ++ b :: bs') none
          simp only [List.nil_append]
          refine chain_update_head_prev ⟨nb, hmb, hnbp, hnbn, hrestb⟩ ?_ ?_
          · intro n hn
            rw [hmb] at hn
            cases hn
            exact writeNode_mem_self _ _ _
          · intro i hi
            have hib : i ≠ b := by
              intro hEq
              subst hEq
              exact (List.nodup_cons.mp hndbs).1 hi
            rw [writeNode_mem_ne _ hib]
        · intro i hi
          exact hcnt' i hi
      · rw [hred, writeNode_mem_ne _
          (show t ≠ b by intro hEq; exact htbs (by rw [hEq]; exact List.mem_cons_self _ _))]
  | cons a as' =>
    have hf' : hp.front = some a := by simpa using hf
    have hfne : hp.front ≠ some t := by
      rw [hf']
      intro hEq
      cases hEq
      exact htas (List.mem_cons_self _ _)
    have hanil : (a :: as') ≠ [] := by simp
    obtain ⟨dl, p, hsplit⟩ : ∃ dl p, a :: as' = dl ++ [p] :=
      ⟨(a :: as').dropLast, (a :: as').getLast hanil,
        (List.dropLast_append_getLast hanil).symm⟩
    have hplast : (a :: as').getLast? = some p := by
      rw [hsplit]
      exact List.getLast?_concat _
    have hpas : p ∈ a :: as' := by
      rw [hsplit]
      simp
    have hpdl : p ∉ dl := by
      have hnd2 := hndas
      rw [hsplit, List.nodup_append] at hnd2
      intro hmemdl
      exact hnd2.2.2 hmemdl (List.mem_cons_self _ _)
    have hpv' : nt.prev = some p := by
      rw [hpv]
      simp [lastO, hplast]
    have hpt : p ≠ t := fun hEq => htas (hEq ▸ hpas)
    rw [hsplit] at hchas
    obtain ⟨np, hmp, hnpp, hnpn, hchdl, -⟩ := chain_append_split [] _ hchas
    have hrdp : readNode hp p = np := by simp [readNode, hmp]
    cases bs with
    | nil =>
      have hb' : hp.back = some t := by
        rw [hb]
        exact List.getLast?_concat _
      have hnx' : nt.next = none := by simpa [headO] using hnx
      have hred : detachTile hp t =
          { writeNode hp p { np with next := none } with back := some p } := by
        simp only [detachTile, hrd, hpv', hnx']
        rw [if_neg hfne, hrdp]
        rw [if_pos (show (writeNode hp p { np with next := none }).back = some t
          from hb')]
      refine ⟨?_, ?_, by rw [hred]; rfl⟩
      · rw [hred]
        refine ⟨hf', ?_, by simpa using hndas, ?_, ?_⟩
        · show _ = ((a :: as') ++ ([] : List Nat)).getLast?
          rw [List.append_nil, hplast]
        · show chain _ none ((a :: as') ++ ([] : List Nat)) none
          rw [List.append_nil, hsplit]
          refine chain_update_last_next hchas ?_ ?_
          · intro n hn
            rw [hmp] at hn
            cases hn
            exact writeNode_mem_self _ _ _
          · intro i hi
            have hip : i ≠ p := fun hEq => hpdl (hEq ▸ hi)
            rw [writeNode_mem_ne _ hip]
        · intro i hi
          exact hcnt' i hi
      · rw [hred]
        show (writeNode hp p { np with next := none }).mem t = hp.mem t
        rw [writeNode_mem_ne _ (Ne.symm hpt)]
    | cons b bs' =>
      have hb' : hp.back = (b :: bs').getLast? := by
        rw [hb, List.getLast?_append_cons]
        rfl
      have hbne : hp.back ≠ some t := by
        rw [hb']
        intro hEq
        exact htbs (List.mem_of_getLast?_eq_some hEq)
      have hnx' : nt.next = some b := by simpa [headO] using hnx
      obtain ⟨nb, hmb, hnbp, hnbn, hrestb⟩ := hchbs
      have hbas : b ∉ a :: as' := fun hmemb =>
        hdisj hmemb (List.mem_cons_of_mem _ (List.mem_cons_self _ _))
      have hpb : p ≠ b := fun hEq => hbas (hEq ▸ hpas)
      have hrdb : readNode (writeNode hp p { np with next := some b }) b = nb := by
        simp [readNode, writeNode_mem_ne _ (Ne.symm hpb), hmb]
      have hred : detachTile hp t =
          writeNode (writeNode hp p { np with next := some b }) b
            { nb with prev := some p } := by
        simp only [detachTile, hrd, hpv', hnx']
        rw [if_neg hfne, hrdp]
        rw [if_neg (show (writeNode hp p { np with next := some b }).back ≠ some t
          from hbne)]
        rw [hrdb]
      refine ⟨?_, ?_, by rw [hred]; rfl⟩
      · rw [hred]
        refine ⟨hf', ?_, hndab, ?_, ?_⟩
        · show hp.back = ((a :: as') ++ b :: bs').getLast?
          rw [hb', List.getLast?_append_cons]
        · refine chain_append_of (b :: bs') (a :: as') ?_ ?_
          · show chain _ none (a :: as') (headO none (b :: bs'))
            rw [hsplit]
            refine chain_update_last_next hchas ?_ ?_
            · intro n hn
              rw [hmp] at hn
              cases hn
              rw [writeNode_mem_ne _ hpb, writeNode_mem_self]
              rfl
            · intro i hi
              have hip : i ≠ p := fun hEq => hpdl (hEq ▸ hi)
              have hib : i ≠ b := by
                intro hEq
                apply hbas
                rw [hsplit]
                exact List.mem_append.mpr (Or.inl (hEq ▸ hi))
              rw [writeNode_mem_ne _ hib, writeNode_mem_ne _ hip]
          · show chain _ (lastO none (a :: as')) (b :: bs') none
            have hlo : lastO none (a :: as') = some p := by simp [lastO, hplast]
            rw [hlo]
            refine chain_update_head_prev ⟨nb, hmb, hnbp, hnbn, hrestb⟩ ?_ ?_
            · intro n hn
              rw [hmb] at hn
              cases hn
              exact writeNode_mem_self _ _ _
            · intro i hi
              have hib : i ≠ b := by
                intro hEq
                subst hEq
                exact (List.nodup_cons.mp hndbs).1 hi
              have hip : i ≠ p := by
                intro hEq
                exact hdisj (hEq ▸ hpas) (List.mem_cons_of_mem _
                  (List.mem_cons_of_mem _ hi))
              rw [writeNode_mem_ne _ hib, writeNode_mem_ne _ hip]
        · exact hcnt'
      · rw [hred,
          writeNode_mem_ne _
            (show t ≠ b by
              intro hEq; exact htbs (by rw [hEq]; exact List.mem_cons_self _ _)),
          writeNode_mem_ne _ (Ne.symm hpt)]

/-- `attachFront` of a fresh allocated node extends the represented
sequence at the front. -/
theorem attachFront_represents {hp : Heap} {ids : List Nat} {nf : Nat} {n : Node}
    (h : represents hp ids) (hmem : hp.mem nf = some n) (hfresh : nf ∉ ids)
    (hbound : nf < hp.nextId) (hempty : ids = [] → n.next = none) :
    represents (attachFront hp nf) (nf :: ids) := by
  obtain ⟨hf, hb, hnd, hch, hcnt⟩ := h
  have hrdnf : readNode hp nf = n := by simp [readNode, hmem]
  cases ids with
  | nil =>
    have hf' : hp.front = none := by simpa using hf
    have hred : attachFront hp nf =
        { writeNode hp nf { n with prev := none } with
          front := some nf, back := some nf } := by
      simp only [attachFront, hrdnf]
      rw [show (writeNode hp nf { n with prev := none }).front = none from hf']
    rw [hred]
    refine ⟨rfl, rfl, List.nodup_singleton _, ?_, ?_⟩
    · exact ⟨{ n with prev := none }, writeNode_mem_self _ _ _, rfl,
        by show n.next = headO none []; rw [hempty rfl]; rfl, trivial⟩
    · intro i hi
      rcases List.mem_singleton.mp hi with rfl
      exact hbound
  | cons f rest =>
    have hf' : hp.front = some f := by simpa using hf
    obtain ⟨nfr, hmf, hfp, hfn, hrest⟩ := hch
    have hfnf : f ≠ nf := fun hEq => hfresh (hEq ▸ List.mem_cons_self _ _)
    have hrdf' : readNode hp f = nfr := by simp [readNode, hmf]
    have hred : attachFront hp nf =
        { writeNode (writeNode (writeNode hp nf { n with prev := none }) nf
            { n with prev := none, next := some f }) f { nfr with prev := some nf }
          with front := some nf } := by
      simp only [attachFront, hrdnf]
      rw [show (writeNode hp nf { n with prev := none }).front = some f from hf']
      simp only [readNode_writeNode_self, readNode_writeNode_ne _ hfnf, hrdf']
    rw [hred]
    refine ⟨rfl, ?_, List.nodup_cons.mpr ⟨hfresh, hnd⟩, ?_, ?_⟩
    · show hp.back = (nf :: f :: rest).getLast?
      rw [hb, List.getLast?_cons_cons]
    · refine ⟨{ n with prev := none, next := some f }, ?_, rfl, rfl, ?_⟩
      · rw [writeNode_mem_ne _ (Ne.symm hfnf), writeNode_mem_self]
      · refine chain_update_head_prev ⟨nfr, hmf, hfp, hfn, hrest⟩ ?_ ?_
        · intro m hm
          rw [hmf] at hm
          cases hm
          exact writeNode_mem_self _ _ _
        · intro i hi
          have hif : i ≠ f := by
            intro hEq
            subst hEq
            exact (List.nodup_cons.mp hnd).1 hi
          have hinf : i ≠ nf := fun hEq =>
            hfresh (hEq ▸ List.mem_cons_of_mem _ hi)
          rw [writeNode_mem_ne _ hif, writeNode_mem_ne _ hinf,
            writeNode_mem_ne _ hinf]
    · intro i hi
      rcases List.mem_cons.mp hi with rfl | hi
      · exact hbound
      · exact hcnt i hi

/-- `attachBack` of a fresh allocated node extends the represented sequence
at the back. -/
theorem attachBack_represents {hp : Heap} {ids : List Nat} {nb : Nat} {n : Node}
    (h : represents hp ids) (hmem : hp.mem nb = some n) (hfresh : nb ∉ ids)
    (hbound : nb < hp.nextId) (hempty : ids = [] → n.prev = none) :
    represents (attachBack hp nb) (ids ++ [nb]) := by
  obtain ⟨hf, hb, hnd, hch, hcnt⟩ := h
  have hrdnb : readNode hp nb = n := by simp [readNode, hmem]
  cases ids with
  | nil =>
    have hf' : hp.front = none := by simpa using hf
    have hred : attachBack hp nb =
        { writeNode hp nb { n with next := none } with
          front := some nb, back := some nb } := by
      simp only [attachBack, hrdnb]
      rw [show (writeNode hp nb { n with next := none }).front = none from hf']
    rw [hred]
    refine ⟨rfl, rfl, List.nodup_singleton _, ?_, ?_⟩
    · exact ⟨{ n with next := none }, writeNode_mem_self _ _ _,
        by show n.prev = none; exact hempty rfl, rfl, trivial⟩
    · intro i hi
      rcases List.mem_singleton.mp (by simpa using hi) with rfl
      exact hbound
  | cons f rest =>
    have hf' : hp.front = some f := by simpa using hf
    have hanil : (f :: rest) ≠ [] := by simp
    obtain ⟨dl, bl, hsplit⟩ : ∃ dl bl, f :: rest = dl ++ [bl] :=
      ⟨(f :: rest).dropLast, (f :: rest).getLast hanil,
        (List.dropLast_append_getLast hanil).symm⟩
    have hblast : (f :: rest).getLast? = some bl := by
      rw [hsplit]
      exact List.getLast?_concat _
    have hblm : bl ∈ f :: rest := by
      rw [hsplit]
      simp
    have hbldl : bl ∉ dl := by
      have hnd2 := hnd
      rw [hsplit, List.nodup_append] at hnd2
      intro hmemdl
      exact hnd2.2.2 hmemdl (List.mem_cons_self _ _)
    have hb' : hp.back = some bl := by rw [hb, hblast]
    have hblnb : bl ≠ nb := fun hEq => hfresh (hEq ▸ hblm)
    rw [hsplit] at hch
    obtain ⟨nbl, hmbl, hblp, hbln, hchdl, -⟩ := chain_append_split [] _ hch
    have hrdbl' : readNode hp bl = nbl := by simp [readNode, hmbl]
    have hred : attachBack hp nb =
        { writeNode (writeNode (writeNode hp nb { n with next := none }) nb
            { n with next := none, prev := some bl }) bl
            { nbl with next := some nb }
          with back := some nb } := by
      simp only [attachBack, hrdnb]
      rw [show (writeNode hp nb { n with next := none }).front = some f from hf']
      rw [show (writeNode hp nb { n with next := none }).back = some bl from hb']
      simp only [readNode_writeNode_self, readNode_writeNode_ne _ hblnb, hrdbl']
    rw [hred]
    refine ⟨?_, ?_, ?_, ?_, ?_⟩
    · show hp.front = ((f :: rest) ++ [nb]).head?
      rw [hf']
      rfl
    · show _ = ((f :: rest) ++ [nb]).getLast?
      rw [List.getLast?_concat]
    · rw [List.nodup_append]
      exact ⟨hnd, List.nodup_singleton _,
        fun a ha hb2 => (List.mem_singleton.mp hb2 ▸ hfresh) ha⟩
    · refine chain_append_of [nb] (f :: rest) ?_ ?_
      · show chain _ none (f :: rest) (headO none [nb])
        rw [hsplit]
        refine chain_update_last_next hch ?_ ?_
        · intro m hm
          rw [hmbl] at hm
          cases hm
          rw [writeNode_mem_self]
          rfl
        · intro i hi
          have hibl : i ≠ bl := fun hEq => hbldl (hEq ▸ hi)
          have hinb : i ≠ nb := fun hEq => hfresh (by
            rw [hsplit]
            exact List.mem_append.mpr (Or.inl (hEq ▸ hi)))
          rw [writeNode_mem_ne _ hibl, writeNode_mem_ne _ hinb,
            writeNode_mem_ne _ hinb]
      · show chain _ (lastO none (f :: rest)) [nb] none
        have hlo : lastO none (f :: rest) = some bl := by simp [lastO, hblast]
        rw [hlo]
        refine ⟨{ n with next := none, prev := some bl }, ?_, rfl, rfl, trivial⟩
        rw [writeNode_mem_ne _ (Ne.symm hblnb), writeNode_mem_self]
    · intro i hi
      rcases List.mem_append.mp hi with hi | hi
      · exact hcnt i (hsplit ▸ hi)
      · rcases List.mem_singleton.mp hi with rfl
        exact hbound

/-- Freeing storage off the chain does not disturb representation. -/
theorem free_represents {hp : Heap} {ids : List Nat} {t : Nat}
    (h : represents hp ids) (ht : t ∉ ids) : represents (freeNode hp t) ids := by
  obtain ⟨hf, hb, hnd, hch, hcnt⟩ := h
  refine ⟨hf, hb, hnd, ?_, hcnt⟩
  exact chain_congr_of_eq
    (fun i hi => freeNode_mem_ne _ (fun hEq => ht (hEq ▸ hi))) hch

/-- Overwriting only the tile payload of a node does not disturb
representation. -/
theorem write_tile_represents {hp : Heap} {ids : List Nat} {t : Nat} {n : Node}
    (tl : Tile) (h : represents hp ids) (hmem : hp.mem t = some n) :
    represents (writeNode hp t { n with tile := tl }) ids := by
  obtain ⟨hf, hb, hnd, hch, hcnt⟩ := h
  refine ⟨hf, hb, hnd, ?_, hcnt⟩
  refine chain_congr ?_ hch
  intro i hi m hm
  by_cases hit : i = t
  · subst hit
    rw [hmem] at hm
    cases hm
    exact ⟨{ n with tile := tl }, writeNode_mem_self _ _ _, rfl, rfl⟩
  · exact ⟨m, by rw [writeNode_mem_ne _ hit]; exact hm, rfl, rfl⟩

/-- Allocating a fresh node leaves the represented sequence intact. -/
theorem alloc_represents {hp : Heap} {ids : List Nat} (h : represents hp ids)
    (tl : Tile) :
    represents
      { mem := fun q => if q = hp.nextId then some ⟨tl, none, none⟩ else hp.mem q,
        front := hp.front, back := hp.back, nextId := hp.nextId + 1 } ids ∧
      hp.nextId ∉ ids := by
  obtain ⟨hf, hb, hnd, hch, hcnt⟩ := h
  have hni : hp.nextId ∉ ids := fun hmem => lt_irrefl _ (hcnt _ hmem)
  refine ⟨⟨hf, hb, hnd, ?_, ?_⟩, hni⟩
  · refine chain_congr_of_eq ?_ hch
    intro i hi
    have hine : i ≠ hp.nextId := fun hEq => hni (hEq ▸ hi)
    simp [hine]
  · intro i hi
    exact Nat.lt_succ_of_lt (hcnt i hi)

/-- The node located by `findTile` splits the represented sequence, and its
pointers are determined by its neighbours. -/
theorem found_decomp {hp : Heap} {ids : List Nat} {x y : Int} {fuel : Nat}
    {t : Nat} (hrep : represents hp ids) (hf : findTile hp x y fuel = some t) :
    ∃ as bs nt, ids = as ++ t :: bs ∧ hp.mem t = some nt ∧
      nt.prev = lastO none as ∧ nt.next = headO none bs := by
  have htm := findTile_mem hrep hf
  obtain ⟨as, bs, hids⟩ := List.append_of_mem htm
  have hch := hrep.2.2.2.1
  rw [hids] at hch
  obtain ⟨nt, hmt, hpv, hnx, -, -⟩ := chain_append_split _ _ hch
  exact ⟨as, bs, nt, hids, hmt, hpv, hnx⟩

theorem not_mem_of_nodup_middle {as bs : List Nat} {t : Nat}
    (hnd : (as ++ t :: bs).Nodup) : t ∉ as ++ bs := by
  intro hmem
  rcases List.mem_append.mp hmem with hmem | hmem
  · exact (List.nodup_append.mp hnd).2.2 hmem (List.mem_cons_self _ _)
  · exact (List.nodup_cons.mp (List.nodup_append.mp hnd).2.1).1 hmem

/-- One find-detach-delete step (shared by `remove`, `removeAll` and
`merge`) preserves well-formedness. -/
theorem removeStep_wf {hp : Heap} {x y : Int} {fuel : Nat} {t : Nat} (h : Wf hp)
    (hf : findTile hp x y fuel = some t) :
    Wf (freeNode (detachTile hp t) t) := by
  obtain ⟨ids, hrep⟩ := h
  obtain ⟨as, bs, nt, hids, -, -, -⟩ := found_decomp hrep hf
  subst hids
  obtain ⟨hrep2, -, -⟩ := detach_represents hrep
  exact ⟨as ++ bs, free_represents hrep2 (not_mem_of_nodup_middle hrep.2.2.1)⟩

theorem raise_wf {hp : Heap} (x y : Int) (fuel : Nat) (h : Wf hp) :
    Wf (raise hp x y fuel).2 := by
  obtain ⟨ids, hrep⟩ := h
  match hfind : findTile hp x y fuel with
  | none =>
    simp only [raise, hfind]
    exact ⟨ids, hrep⟩
  | some t =>
    by_cases hft : hp.front = some t
    · simp only [raise, hfind, if_pos hft]
      exact ⟨ids, hrep⟩
    · simp only [raise, hfind, if_neg hft]
      obtain ⟨as, bs, nt, hids, hmt, hpv, hnx⟩ := found_decomp hrep hfind
      subst hids
      obtain ⟨hrep2, hmem2, hnid2⟩ := detach_represents hrep
      have hmem2' : (detachTile hp t).mem t = some nt := by rw [hmem2, hmt]
      have hfresh : t ∉ as ++ bs := not_mem_of_nodup_middle hrep.2.2.1
      have hbound : t < (detachTile hp t).nextId := by
        rw [hnid2]
        exact hrep.2.2.2.2 t (List.mem_append.mpr (Or.inr (List.mem_cons_self _ _)))
      have hempty : as ++ bs = [] → nt.next = none := by
        intro hEq
        obtain ⟨-, hbs⟩ := List.append_eq_nil.mp hEq
        subst hbs
        simpa [headO] using hnx
      exact ⟨t :: (as ++ bs),
        attachFront_represents hrep2 hmem2' hfresh hbound hempty⟩

theorem lower_wf {hp : Heap} (x y : Int) (fuel : Nat) (h : Wf hp) :
    Wf (lower hp x y fuel).2 := by
  obtain ⟨ids, hrep⟩ := h
  match hfind : findTile hp x y fuel with
  | none =>
    simp only [lower, hfind]
    exact ⟨ids, hrep⟩
  | some t =>
    by_cases hbk : hp.back = some t
    · simp only [lower, hfind, if_pos hbk]
      exact ⟨ids, hrep⟩
    · simp only [lower, hfind, if_neg hbk]
      obtain ⟨as, bs, nt, hids, hmt, hpv, hnx⟩ := found_decomp hrep hfind
      subst hids
      obtain ⟨hrep2, hmem2, hnid2⟩ := detach_represents hrep
      have hmem2' : (detachTile hp t).mem t = some nt := by rw [hmem2, hmt]
      have hfresh : t ∉ as ++ bs := not_mem_of_nodup_middle hrep.2.2.1
      have hbound : t < (detachTile hp t).nextId := by
        rw [hnid2]
        exact hrep.2.2.2.2 t (List.mem_append.mpr (Or.inr (List.mem_cons_self _ _)))
      have hempty : as ++ bs = [] → nt.prev = none := by
        intro hEq
        obtain ⟨has, -⟩ := List.append_eq_nil.mp hEq
        subst has
        simpa [lastO] using hpv
      exact ⟨(as ++ bs) ++ [t],
        attachBack_represents hrep2 hmem2' hfresh hbound hempty⟩

theorem remove_wf {hp : Heap} (x y : Int) (fuel : Nat) (h : Wf hp) :
    Wf (remove hp x y fuel).2 := by
  match hfind : findTile hp x y fuel with
  | none =>
    simp only [remove, hfind]
    exact h
  | some t =>
    simp only [remove, hfind]
    exact removeStep_wf h hfind

theorem highlight_wf {hp : Heap} (x y : Int) (fuel : Nat) (h : Wf hp) :
    Wf (highlight hp x y fuel).2 := by
  obtain ⟨ids, hrep⟩ := h
  match hfind : findTile hp x y fuel with
  | none =>
    simp only [highlight, hfind]
    exact ⟨ids, hrep⟩
  | some t =>
    simp only [highlight, hfind]
    obtain ⟨as, bs, nt, hids, hmt, -, -⟩ := found_decomp hrep hfind
    have hrd : readNode hp t = nt := by simp [readNode, hmt]
    rw [hrd]
    exact ⟨ids, write_tile_represents _ hrep hmt⟩

theorem addFront_wf {hp : Heap} (x y w h : Int) (c : String) (hwf : Wf hp) :
    Wf (addFront hp x y w h c) := by
  obtain ⟨ids, hrep⟩ := hwf
  obtain ⟨hrep2, hni⟩ := alloc_represents hrep ⟨x, y, w, h, c⟩
  simp only [addFront]
  exact ⟨hp.nextId :: ids,
    attachFront_represents hrep2
      (show _ = some (⟨⟨x, y, w, h, c⟩, none, none⟩ : Node) by simp)
      hni (Nat.lt_succ_self _) (fun _ => rfl)⟩

theorem addBack_wf {hp : Heap} (x y w h : Int) (c : String) (hwf : Wf hp) :
    Wf (addBack hp x y w h c) := by
  obtain ⟨ids, hrep⟩ := hwf
  obtain ⟨hrep2, hni⟩ := alloc_represents hrep ⟨x, y, w, h, c⟩
  simp only [addBack]
  exact ⟨ids ++ [hp.nextId],
    attachBack_represents hrep2
      (show _ = some (⟨⟨x, y, w, h, c⟩, none, none⟩ : Node) by simp)
      hni (Nat.lt_succ_self _) (fun _ => rfl)⟩

theorem removeAllLoop_wf (x y : Int) (fuel : Nat) :
    ∀ (steps : Nat) (hp : Heap), Wf hp →
      Wf (removeAllLoop x y fuel steps hp).2 := by
  intro steps
  induction steps with
  | zero => intro hp h; exact h
  | succ steps ih =>
    intro hp h
    match hfind : findTile hp x y fuel with
    | none =>
      simp only [removeAllLoop, hfind]
      exact h
    | some t =>
      simp only [removeAllLoop, hfind]
      exact ih _ (removeStep_wf h hfind)

theorem mergeLoop_wf (x y : Int) (fuel : Nat) :
    ∀ (steps : Nat) (mX mY MX MY : Int) (hp : Heap), Wf hp →
      Wf (mergeLoop x y fuel steps mX mY MX MY hp).2.2.2.2 := by
  intro steps
  induction steps with
  | zero => intro mX mY MX MY hp h; exact h
  | succ steps ih =>
    intro mX mY MX MY hp h
    match hfind : findTile hp x y fuel with
    | none =>
      simp only [mergeLoop, hfind]
      exact h
    | some t =>
      simp only [mergeLoop, hfind]
      exact ih _ _ _ _ _ (removeStep_wf h hfind)

theorem merge_wf {hp : Heap} (x y : Int) (h : Wf hp) : Wf (merge hp x y) := by
  match hfind : findTile hp x y hp.nextId with
  | none =>
    simp only [merge, hfind]
    exact h
  | some t0 =>
    simp only [merge, hfind]
    exact addFront_wf _ _ _ _ _
      (mergeLoop_wf x y hp.nextId hp.nextId _ _ _ _ hp h)

theorem clear_wf (hp : Heap) : Wf (clear hp) :=
  ⟨[], rfl, rfl, List.nodup_nil, trivial, fun _ hi => absurd hi (List.not_mem_nil _)⟩

theorem applyOp_wf (hp : Heap) (op : Op) (h : Wf hp) : Wf (applyOp hp op) := by
  cases op with
  | addFront x y w hh c => exact addFront_wf x y w hh c h
  | addBack x y w hh c => exact addBack_wf x y w hh c h
  | highlight x y => exact highlight_wf x y hp.nextId h
  | raise x y => exact raise_wf x y hp.nextId h
  | lower x y => exact lower_wf x y hp.nextId h
  | remove x y => exact remove_wf x y hp.nextId h
  | removeAll x y => exact removeAllLoop_wf x y hp.nextId hp.nextId hp h
  | merge x y => exact merge_wf x y h
  | clear => exact clear_wf hp

/-- **C7**: starting from the empty collection, every public operation
(`addFront`, `addBack`, `highlight`, `raise`, `lower`, `remove`,
`removeAll`, `merge`, `clear`) preserves sequence well-formedness: some
node sequence is represented, meaning the `front` pointer is null iff the
`back` pointer is null, following `next` from `front` traverses each node
once (no cycles or branching, addresses are distinct) and ends at `back`,
`prev` and `next` are mutually inverse on adjacent nodes, the front node
has no predecessor and the back node has no successor. -/
theorem structure_wellformedness_spec :
    Wf emptyHeap ∧
    (∀ (hp : Heap) (op : Op), Wf hp → Wf (applyOp hp op)) ∧
    (∀ ops : List Op, Wf (ops.foldl applyOp emptyHeap)) ∧
    (∀ hp : Heap, Wf hp → (hp.front = none ↔ hp.back = none)) := by
  have hempty : Wf emptyHeap :=
    ⟨[], rfl, rfl, List.nodup_nil, trivial, fun _ hi => absurd hi (List.not_mem_nil _)⟩
  have H : ∀ (ops : List Op) (hp : Heap), Wf hp → Wf (ops.foldl applyOp hp) := by
    intro ops
    induction ops with
    | nil => intro hp h; exact h
    | cons op rest ih => intro hp h; exact ih _ (applyOp_wf hp op h)
  refine ⟨hempty, fun hp op h => applyOp_wf hp op h, fun ops => H ops _ hempty, ?_⟩
  intro hp h
  obtain ⟨ids, hf, hb, -, -, -⟩ := h
  rw [hf, hb]
  cases ids <;> simp

/-- Witness for **C7**: the empty heap is well-formed and one `addFront`
keeps it so. -/
theorem structure_wellformedness_spec_witness :
    Wf (applyOp emptyHeap (Op.addFront 0 0 10 10 "red")) :=
  structure_wellformedness_spec.2.1 emptyHeap (Op.addFront 0 0 10 10 "red")
    ⟨[], rfl, rfl, List.nodup_nil, trivial, fun _ hi => absurd hi (List.not_mem_nil _)⟩

end TileHeap
